import Mathlib

/-!
# gocyclo: cyclomatic complexity of Go functions

A shallow embedding of the scoring, aggregation and reporting code of
`src/EUR-KR.go` (the `package main` part, lines 127-346).

Conventions of the embedding:

* Go `int` is `Int`; the counters here never come near the 64-bit range, so no
  wrap-around is modelled.
* A run-time panic (indexing an empty slice) is `none` in an `Option` result.
* The syntax tree of `go/ast` is a tree of nodes tagged with their dynamic
  type.  The three node types whose fields the code reads (`Ident`, `StarExpr`,
  `BinaryExpr`) have constructors of their own; every other node type is
  `Node.other kind children`, where `children` lists the sub-nodes in the order
  `ast.Walk` walks them.
* `*ast.FuncDecl`, `*ast.File` are not node kinds of `Node`: `go/parser` creates a
  `FuncDecl` only as an element of `File.Decls`, never below another declaration.
* Writing to the `io.Writer` is modelled by the list of records handed to
  `fmt.Fprintln`, in order.
* Go `float64` is `Float64`: `NaN`, the infinities and the finite values `± m * 2 ^ e`
  with a 53-bit `m`; conversion and division round to nearest, ties to even.  The
  exponent range is not modelled.
* `main` is modelled from `stats := analyze(args)` on; reading and parsing the files
  is outside the embedding.
* `sort.Sort` is the library's pattern-defeating quicksort (insertion sort up to 12
  records, then pivot choice, partition, heap sort as the fallback), run on the
  repository's `Len`, `Less` and `Swap`.  The step of the library's pseudo-random
  generator is an argument `next` of `sort_Sort` and of `main`; every property below
  holds for every `next`.
-/

namespace Gocyclo

/-! ## Syntax trees (`go/token`, `go/ast`) -/

/-- Binary operator tokens of `go/token` that the parser stores in `BinaryExpr.Op`. -/
inductive Token where
  | ADD | SUB | MUL | QUO | REM
  | AND | OR | XOR | SHL | SHR | AND_NOT
  | LAND | LOR
  | EQL | LSS | GTR | NEQ | LEQ | GEQ
  deriving DecidableEq, Repr

/-- Dynamic types of `go/ast` nodes other than `Ident`, `StarExpr`, `BinaryExpr`
(which are constructors of `Node`) and `FuncDecl`, `File`, `Package`. -/
inductive Kind where
  | Comment | CommentGroup | Field | FieldList
  | BadExpr | Ellipsis | BasicLit | FuncLit | CompositeLit | ParenExpr
  | SelectorExpr | IndexExpr | IndexListExpr | SliceExpr | TypeAssertExpr
  | CallExpr | UnaryExpr | KeyValueExpr
  | ArrayType | StructType | FuncType | InterfaceType | MapType | ChanType
  | BadStmt | DeclStmt | EmptyStmt | LabeledStmt | ExprStmt | SendStmt
  | IncDecStmt | AssignStmt | GoStmt | DeferStmt | ReturnStmt | BranchStmt
  | BlockStmt | IfStmt | CaseClause | SwitchStmt | TypeSwitchStmt
  | CommClause | SelectStmt | ForStmt | RangeStmt
  | ImportSpec | ValueSpec | TypeSpec | BadDecl | GenDecl
  deriving DecidableEq, Repr

/-- A syntax-tree node below a function declaration. -/
inductive Node where
  | Ident (Name : String)
  | StarExpr (X : Node)
  | BinaryExpr (X : Node) (Op : Token) (Y : Node)
  | other (kind : Kind) (children : List Node)
  deriving Repr

/-- The `*ast.Field` of a parameter or receiver list: its names and its type (`Typ` is the field `Type`). -/
structure Field where
  Names : List String
  Typ : Node
  deriving Repr

/-- The `*ast.FieldList` of a receiver. -/
structure FieldList where
  List : List Field
  deriving Repr

/-- The `*ast.FuncDecl` of a function or method.  `Recv = none` is Go's nil
receiver; `Name` is `fn.Name.Name`; `Typ` is the field `Type`, the `*ast.FuncType`; `Body = none`
is a declaration without body; `Pos` is the value of `fn.Pos()`. -/
structure FuncDecl where
  Recv : Option FieldList
  Name : String
  Typ : Node
  Body : Option Node
  Pos : Int
  deriving Repr

/-- A top-level declaration of a file (`ast.Decl`). -/
inductive Decl where
  | FuncDecl (fn : FuncDecl)
  | GenDecl (n : Node)
  | BadDecl
  deriving Repr

/-- The `*ast.File`: `Name` is `f.Name.Name`, `Decls` the top-level declarations. -/
structure File where
  Name : String
  Decls : List Decl
  deriving Repr

/-- The value of type `ast.Node` that `ast.Walk` hands to `Visitor.Visit`. -/
inductive AstNode where
  | nil
  | FuncDecl (fn : FuncDecl)
  | node (n : Node)

/-- The tree `ast.Walk` walks for a `*ast.Field`: the names, then the type. -/
def Field.toNode (f : Field) : Node :=
  Node.other Kind.Field (f.Names.map Node.Ident ++ [f.Typ])

/-- The tree `ast.Walk` walks for a `*ast.FieldList`: its fields in order. -/
def FieldList.toNode (l : FieldList) : Node :=
  Node.other Kind.FieldList (l.List.map Field.toNode)

/-! ## Records -/

/-- The `token.Position` of a declaration. -/
structure Position where
  Filename : String
  Offset : Int
  Line : Int
  Column : Int
  deriving DecidableEq, Repr

/-- The `*token.FileSet`, as the map `fset.Position` from `token.Pos` to `Position`. -/
abbrev FileSet := Int → Position

/-- The record `stat` of one function. -/
structure stat where
  PkgName : String
  FuncName : String
  Complexity : Int
  Pos : Position
  deriving DecidableEq, Repr

/-! ## Complexity (`complexityVisitor`, `complexity`) -/

/-- The visitor state. -/
structure complexityVisitor where
  Complexity : Int
  deriving DecidableEq, Repr

/-- The method `(*complexityVisitor).Visit`: one step of the traversal.  The returned
visitor is the receiver itself, with its counter possibly incremented. -/
def Visit (v : complexityVisitor) (n : AstNode) : complexityVisitor :=
  match n with
  | AstNode.FuncDecl _
  | AstNode.node (Node.other Kind.IfStmt _)
  | AstNode.node (Node.other Kind.ForStmt _)
  | AstNode.node (Node.other Kind.RangeStmt _)
  | AstNode.node (Node.other Kind.CaseClause _)
  | AstNode.node (Node.other Kind.CommClause _) =>
      { v with Complexity := v.Complexity + 1 }
  | AstNode.node (Node.BinaryExpr _ Op _) =>
      if Op = Token.LAND ∨ Op = Token.LOR then
        { v with Complexity := v.Complexity + 1 }
      else v
  | _ => v

mutual
/-- The library traversal `ast.Walk(v, node)` for a node below a declaration:
`Visit` the node, walk its children in order, then `Visit(nil)`. -/
def Walk (v : complexityVisitor) : Node → complexityVisitor
  | Node.Ident Name => Visit (Visit v (AstNode.node (Node.Ident Name))) AstNode.nil
  | Node.StarExpr X =>
      Visit (Walk (Visit v (AstNode.node (Node.StarExpr X))) X) AstNode.nil
  | Node.BinaryExpr X Op Y =>
      Visit (Walk (Walk (Visit v (AstNode.node (Node.BinaryExpr X Op Y))) X) Y) AstNode.nil
  | Node.other kind children =>
      Visit (walkList (Visit v (AstNode.node (Node.other kind children))) children) AstNode.nil
/-- Walking a list of children, first to last. -/
def walkList (v : complexityVisitor) : List Node → complexityVisitor
  | [] => v
  | c :: cs => walkList (Walk v c) cs
end

/-- The library traversal `ast.Walk(v, fn)` for a `*ast.FuncDecl`: `Visit` the
declaration, walk `Recv` (when not nil), `Name`, `Type` and `Body` (when not nil),
then `Visit(nil)`.  (`Doc` is nil: the file is parsed without comments.) -/
def WalkFuncDecl (v : complexityVisitor) (fn : FuncDecl) : complexityVisitor :=
  let v₁ := Visit v (AstNode.FuncDecl fn)
  let v₂ := match fn.Recv with
    | some recv => Walk v₁ recv.toNode
    | none => v₁
  let v₃ := Walk v₂ (Node.Ident fn.Name)
  let v₄ := Walk v₃ fn.Typ
  let v₅ := match fn.Body with
    | some body => Walk v₄ body
    | none => v₄
  Visit v₅ AstNode.nil

/-- The function `complexity`: the cyclomatic complexity of a function. -/
def complexity (fn : FuncDecl) : Int :=
  (WalkFuncDecl { Complexity := 0 } fn).Complexity

/-! ## Display names (`recvString`, `funcName`) -/

/-- The function `recvString`. -/
def recvString : Node → String
  | Node.Ident Name => Name
  | Node.StarExpr X => "*" ++ recvString X
  | _ => "BADRECV"

/-- The function `funcName`.  `fn.Recv.List[0]` panics on an empty receiver list:
the result is then `none`. -/
def funcName (fn : FuncDecl) : Option String :=
  match fn.Recv with
  | some recv =>
      match recv.List[0]? with
      | some field => some ("(" ++ recvString field.Typ ++ ")." ++ fn.Name)
      | none => none
  | none => some fn.Name

/-! ## Collecting records (`buildStats`) -/

/-- One iteration of the loop of `buildStats` over `f.Decls`. -/
def buildStatsStep (f : File) (fset : FileSet) (stats : List stat) (decl : Decl) :
    Option (List stat) :=
  match decl with
  | Decl.FuncDecl fn =>
      match funcName fn with
      | some name =>
          some (stats ++ [{ PkgName := f.Name, FuncName := name,
                            Complexity := complexity fn, Pos := fset fn.Pos }])
      | none => none
  | _ => some stats

/-- The loop of `buildStats` over the remaining declarations. -/
def buildStatsLoop (f : File) (fset : FileSet) : List Decl → List stat → Option (List stat)
  | [], stats => some stats
  | decl :: rest, stats =>
      match buildStatsStep f fset stats decl with
      | some stats₁ => buildStatsLoop f fset rest stats₁
      | none => none

/-- The function `buildStats`. -/
def buildStats (f : File) (fset : FileSet) (stats : List stat) : Option (List stat) :=
  buildStatsLoop f fset f.Decls stats

/-! ## Counting decision points (the formula of the specification) -/

mutual
/-- Every node of the subtree rooted at a node, the root first. -/
def Node.subtree : Node → List Node
  | Node.Ident Name => [Node.Ident Name]
  | Node.StarExpr X => Node.StarExpr X :: Node.subtree X
  | Node.BinaryExpr X Op Y => Node.BinaryExpr X Op Y :: (Node.subtree X ++ Node.subtree Y)
  | Node.other kind children => Node.other kind children :: subtreeList children
/-- Every node of the subtrees of a list of nodes. -/
def subtreeList : List Node → List Node
  | [] => []
  | c :: cs => Node.subtree c ++ subtreeList cs
end

/-- Every node below a function declaration: the subtrees of its receiver list,
name, type and body. -/
def FuncDecl.nodes (fn : FuncDecl) : List Node :=
  (match fn.Recv with
    | some recv => Node.subtree recv.toNode
    | none => [])
  ++ Node.subtree (Node.Ident fn.Name)
  ++ Node.subtree fn.Typ
  ++ (match fn.Body with
    | some body => Node.subtree body
    | none => [])

/-- An `if` statement. -/
def Node.isIf : Node → Bool
  | Node.other Kind.IfStmt _ => true
  | _ => false

/-- A `for` statement or a `range` loop. -/
def Node.isLoop : Node → Bool
  | Node.other Kind.ForStmt _ => true
  | Node.other Kind.RangeStmt _ => true
  | _ => false

/-- A case clause of a switch or a communication clause of a select. -/
def Node.isClause : Node → Bool
  | Node.other Kind.CaseClause _ => true
  | Node.other Kind.CommClause _ => true
  | _ => false

/-- A binary expression whose operator is `&&` or `||`. -/
def Node.isShortCircuit : Node → Bool
  | Node.BinaryExpr _ Token.LAND _ => true
  | Node.BinaryExpr _ Token.LOR _ => true
  | _ => false

/-- The number of decision points among a list of nodes: if statements, loops,
case and communication clauses, and `&&`/`||` expressions. -/
def decisionPoints (l : List Node) : Nat :=
  l.countP Node.isIf + l.countP Node.isLoop + l.countP Node.isClause
    + l.countP Node.isShortCircuit

/-- The function declarations of a file, in declaration order. -/
def File.funcDecls (f : File) : List FuncDecl :=
  f.Decls.filterMap fun decl =>
    match decl with
    | Decl.FuncDecl fn => some fn
    | _ => none

/-- The record the specification describes for one function declaration: package
name of the file, display name, complexity and position (`none` where `funcName`
panics). -/
def recordOf (f : File) (fset : FileSet) (fn : FuncDecl) : Option stat :=
  (funcName fn).map fun name =>
    { PkgName := f.Name, FuncName := name, Complexity := complexity fn, Pos := fset fn.Pos }

/-- The records the specification describes for a list of function declarations, one
per declaration and in order (`none` where `funcName` panics on one of them). -/
def recordsOf (f : File) (fset : FileSet) : List FuncDecl → Option (List stat)
  | [] => some []
  | fn :: fns =>
      match recordOf f fset fn, recordsOf f fset fns with
      | some r, some recs => some (r :: recs)
      | _, _ => none

/-! ## Bit length -/

/-- The position of the highest set bit of `n`, found by halving at most `fuel` times. -/
def highBit : Nat → Nat → Nat
  | 0, _ => 0
  | fuel + 1, n => if n < 2 then 0 else highBit fuel (n / 2) + 1

/-- The integer part of the binary logarithm of `n` (0 for `n = 0`); `n` halvings are
always enough. -/
def floorLog2 (n : Nat) : Nat := highBit n n

/-! ## Ordering (`byComplexity`, `sort.Sort`) -/

/-- The slice type `byComplexity`. -/
abbrev byComplexity := List stat

/-- The method `byComplexity.Len`. -/
def byComplexity.Len (s : byComplexity) : Int := s.length

/-- The method `byComplexity.Swap`; an index out of range panics (`none`). -/
def byComplexity.Swap (s : byComplexity) (i j : Nat) : Option byComplexity :=
  match s[i]?, s[j]? with
  | some a, some b => some ((s.set i b).set j a)
  | _, _ => none

/-- The method `byComplexity.Less`; an index out of range panics (`none`). -/
def byComplexity.Less (s : byComplexity) (i j : Nat) : Option Bool :=
  match s[i]?, s[j]? with
  | some a, some b => some (decide (a.Complexity ≥ b.Complexity))
  | _, _ => none

/-! ### The library routines behind `sort.Sort` (package `sort`, `zsortinterface.go`)

`sort.Sort` is the pattern-defeating quicksort of Go 1.19 and later.  Every routine
reads and changes the slice only through `Len`, `Less` and `Swap`.  A loop of the library
is a recursive function with a `fuel` argument where its number of rounds is not a
structural argument; `none` is a panic of `Less` or `Swap`, or a loop out of fuel. -/

/-- The inner loop of the library routine `insertionSort(data, a, b)` of package `sort`,
started at `j`: `for ; j > a && data.Less(j, j-1); j-- { data.Swap(j, j-1) }`. -/
def insertionInner (a : Nat) : Nat → byComplexity → Option byComplexity
  | 0, data => some data
  | j + 1, data =>
      if a < j + 1 then
        match byComplexity.Less data (j + 1) j with
        | some true =>
            match byComplexity.Swap data (j + 1) j with
            | some data₁ => insertionInner a j data₁
            | none => none
        | some false => some data
        | none => none
      else some data

/-- The outer loop of `insertionSort(data, a, b)`, with `n` iterations left and the
loop variable at `i`: `for ; i < b; i++ { inner loop from j := i }`. -/
def insertionOuter (a : Nat) : Nat → Nat → byComplexity → Option byComplexity
  | 0, _, data => some data
  | n + 1, i, data =>
      match insertionInner a i data with
      | some data₁ => insertionOuter a n (i + 1) data₁
      | none => none

/-- The library routine `insertionSort(data, a, b)` of package `sort`: the loop
variable runs from `a + 1` up to `b - 1`, that is `b - (a + 1)` iterations. -/
def insertionSort (data : byComplexity) (a b : Nat) : Option byComplexity :=
  insertionOuter a (b - (a + 1)) (a + 1) data

/-- The library function `bits.Len`: the number of bits of `n` (0 for `n = 0`). -/
def bitsLen (n : Nat) : Nat := if n = 0 then 0 else floorLog2 n + 1

/-- The loop of `siftDown(data, lo, hi, first)` with the root at `root`. -/
def siftDownLoop (hi first : Nat) : Nat → Nat → byComplexity → Option byComplexity
  | 0, _, _ => none
  | fuel + 1, root, data =>
      if 2 * root + 1 ≥ hi then some data
      else
        match (if 2 * root + 1 + 1 < hi then
                byComplexity.Less data (first + (2 * root + 1)) (first + (2 * root + 1) + 1)
               else some false) with
        | none => none
        | some next =>
            match byComplexity.Less data (first + root)
                (first + (if next then 2 * root + 1 + 1 else 2 * root + 1)) with
            | none => none
            | some false => some data
            | some true =>
                match byComplexity.Swap data (first + root)
                    (first + (if next then 2 * root + 1 + 1 else 2 * root + 1)) with
                | none => none
                | some data₁ =>
                    siftDownLoop hi first fuel (if next then 2 * root + 1 + 1 else 2 * root + 1)
                      data₁

/-- The library routine `siftDown(data, lo, hi, first)`. -/
def siftDown (data : byComplexity) (lo hi first : Nat) : Option byComplexity :=
  siftDownLoop hi first (hi + 1) lo data

/-- The first loop of `heapSort`: `for i := (hi - 1) / 2; i >= 0; i--`, at index `i`. -/
def heapBuild (hi first : Nat) : Nat → byComplexity → Option byComplexity
  | 0, data => siftDown data 0 hi first
  | i + 1, data =>
      match siftDown data (i + 1) hi first with
      | some data₁ => heapBuild hi first i data₁
      | none => none

/-- The second loop of `heapSort`: `for i := hi - 1; i >= 0; i--`, with `i + 1` given. -/
def heapPop (first : Nat) : Nat → byComplexity → Option byComplexity
  | 0, data => some data
  | i + 1, data =>
      match byComplexity.Swap data first (first + i) with
      | some data₁ =>
          match siftDown data₁ 0 i first with
          | some data₂ => heapPop first i data₂
          | none => none
      | none => none

/-- The library routine `heapSort(data, a, b)`. -/
def heapSort (data : byComplexity) (a b : Nat) : Option byComplexity :=
  match heapBuild (b - a) a ((b - a - 1) / 2) data with
  | some data₁ => heapPop a (b - a) data₁
  | none => none

/-- The loop `for i <= j && data.Less(i, a) { i++ }`: the final `i`. -/
def scanLess (data : byComplexity) (a j : Nat) : Nat → Nat → Option Nat
  | 0, _ => none
  | fuel + 1, i =>
      if i ≤ j then
        match byComplexity.Less data i a with
        | some true => scanLess data a j fuel (i + 1)
        | some false => some i
        | none => none
      else some i

/-- The loop `for i <= j && !data.Less(j, a) { j-- }`: the final `j`. -/
def scanNotLess (data : byComplexity) (a i : Nat) : Nat → Nat → Option Nat
  | 0, _ => none
  | fuel + 1, j =>
      if i ≤ j then
        match byComplexity.Less data j a with
        | some false => scanNotLess data a i fuel (j - 1)
        | some true => some j
        | none => none
      else some j

/-- The `for { ... }` loop of `partition`: the final data and `j`. -/
def partitionLoop (a : Nat) : Nat → Nat → Nat → byComplexity → Option (byComplexity × Nat)
  | 0, _, _, _ => none
  | fuel + 1, i, j, data =>
      match scanLess data a j (data.length + 1) i with
      | none => none
      | some i₁ =>
          match scanNotLess data a i₁ (data.length + 1) j with
          | none => none
          | some j₁ =>
              if i₁ > j₁ then some (data, j₁)
              else
                match byComplexity.Swap data i₁ j₁ with
                | none => none
                | some data₁ => partitionLoop a fuel (i₁ + 1) (j₁ - 1) data₁

/-- The library routine `partition(data, a, b, pivot)`: the data afterwards, the new
index of the pivot, and whether the slice was already partitioned. -/
def partition (data : byComplexity) (a b pivot : Nat) : Option (byComplexity × Nat × Bool) :=
  match byComplexity.Swap data a pivot with
  | none => none
  | some data₁ =>
      match scanLess data₁ a (b - 1) (data₁.length + 1) (a + 1) with
      | none => none
      | some i =>
          match scanNotLess data₁ a i (data₁.length + 1) (b - 1) with
          | none => none
          | some j =>
              if i > j then
                match byComplexity.Swap data₁ j a with
                | none => none
                | some data₂ => some (data₂, j, true)
              else
                match byComplexity.Swap data₁ i j with
                | none => none
                | some data₂ =>
                    match partitionLoop a (data₂.length + 1) (i + 1) (j - 1) data₂ with
                    | none => none
                    | some (data₃, j₁) =>
                        match byComplexity.Swap data₃ j₁ a with
                        | none => none
                        | some data₄ => some (data₄, j₁, false)

/-- The loop `for i <= j && !data.Less(a, i) { i++ }`: the final `i`. -/
def scanEqual (data : byComplexity) (a j : Nat) : Nat → Nat → Option Nat
  | 0, _ => none
  | fuel + 1, i =>
      if i ≤ j then
        match byComplexity.Less data a i with
        | some false => scanEqual data a j fuel (i + 1)
        | some true => some i
        | none => none
      else some i

/-- The loop `for i <= j && data.Less(a, j) { j-- }`: the final `j`. -/
def scanGreater (data : byComplexity) (a i : Nat) : Nat → Nat → Option Nat
  | 0, _ => none
  | fuel + 1, j =>
      if i ≤ j then
        match byComplexity.Less data a j with
        | some true => scanGreater data a i fuel (j - 1)
        | some false => some j
        | none => none
      else some j

/-- The `for { ... }` loop of `partitionEqual`: the final data and `i`. -/
def partitionEqualLoop (a : Nat) : Nat → Nat → Nat → byComplexity →
    Option (byComplexity × Nat)
  | 0, _, _, _ => none
  | fuel + 1, i, j, data =>
      match scanEqual data a j (data.length + 1) i with
      | none => none
      | some i₁ =>
          match scanGreater data a i₁ (data.length + 1) j with
          | none => none
          | some j₁ =>
              if i₁ > j₁ then some (data, i₁)
              else
                match byComplexity.Swap data i₁ j₁ with
                | none => none
                | some data₁ => partitionEqualLoop a fuel (i₁ + 1) (j₁ - 1) data₁

/-- The library routine `partitionEqual(data, a, b, pivot)`. -/
def partitionEqual (data : byComplexity) (a b pivot : Nat) : Option (byComplexity × Nat) :=
  match byComplexity.Swap data a pivot with
  | none => none
  | some data₁ => partitionEqualLoop a (data₁.length + 1) (a + 1) (b - 1) data₁

/-- The loop `for i < b && !data.Less(i, i-1) { i++ }` of `partialInsertionSort`. -/
def scanOrdered (data : byComplexity) (b : Nat) : Nat → Nat → Option Nat
  | 0, _ => none
  | fuel + 1, i =>
      if i < b then
        match byComplexity.Less data i (i - 1) with
        | some false => scanOrdered data b fuel (i + 1)
        | some true => some i
        | none => none
      else some i

/-- The loop `for j := ...; j < b; j++ { if !data.Less(j, j-1) { break }; data.Swap(j, j-1) }`
of `partialInsertionSort`. -/
def shiftRight (b : Nat) : Nat → Nat → byComplexity → Option byComplexity
  | 0, _, _ => none
  | fuel + 1, j, data =>
      if j < b then
        match byComplexity.Less data j (j - 1) with
        | some false => some data
        | some true =>
            match byComplexity.Swap data j (j - 1) with
            | some data₁ => shiftRight b fuel (j + 1) data₁
            | none => none
        | none => none
      else some data

/-- The loop `for j := 0; j < maxSteps; j++` of `partialInsertionSort`, with `steps`
rounds left and the scan position `i`.  The loop that shifts the smaller record to the
left, `for j := i - 1; j >= 1; j-- { if !data.Less(j, j-1) { break }; data.Swap(j, j-1) }`,
is the inner loop of `insertionSort` with lower bound 0. -/
def partialInsertionLoop (a b : Nat) : Nat → Nat → byComplexity → Option (byComplexity × Bool)
  | 0, _, data => some (data, false)
  | steps + 1, i, data =>
      match scanOrdered data b (data.length + 1) i with
      | none => none
      | some i₁ =>
          if i₁ = b then some (data, true)
          else if b - a < 50 then some (data, false)
          else
            match byComplexity.Swap data i₁ (i₁ - 1) with
            | none => none
            | some data₁ =>
                match (if i₁ - a ≥ 2 then insertionInner 0 (i₁ - 1) data₁ else some data₁) with
                | none => none
                | some data₂ =>
                    match (if b - i₁ ≥ 2 then shiftRight b (data₂.length + 1) (i₁ + 1) data₂
                           else some data₂) with
                    | none => none
                    | some data₃ => partialInsertionLoop a b steps i₁ data₃

/-- The library routine `partialInsertionSort(data, a, b)`. -/
def partialInsertionSort (data : byComplexity) (a b : Nat) : Option (byComplexity × Bool) :=
  partialInsertionLoop a b 5 (a + 1) data

/-- The loop `for i := 0; i < 3; i++` of `breakPatterns`, with the generator state. -/
def breakPatternsLoop (next : Nat → Nat) (a length modulus idx : Nat) :
    Nat → Nat → Nat → byComplexity → Option byComplexity
  | 0, _, _, data => some data
  | n + 1, i, random, data =>
      match byComplexity.Swap data (idx - 1 + i)
          (a + (if ((next random) &&& (modulus - 1)) ≥ length then
                  ((next random) &&& (modulus - 1)) - length
                else ((next random) &&& (modulus - 1)))) with
      | none => none
      | some data₁ => breakPatternsLoop next a length modulus idx n (i + 1) (next random) data₁

/-- The library routine `breakPatterns(data, a, b)`; `next` is the step of the
pseudo-random generator (`(*xorshift).Next`). -/
def breakPatterns (next : Nat → Nat) (data : byComplexity) (a b : Nat) : Option byComplexity :=
  if b - a ≥ 8 then
    breakPatternsLoop next a (b - a) (2 ^ bitsLen (b - a)) (a + (b - a) / 4 * 2 - 1) 3 0
      (b - a) data
  else some data

/-- The hint of `choosePivot`. -/
inductive sortedHint where
  | unknownHint
  | increasingHint
  | decreasingHint
  deriving DecidableEq, Repr

/-- The library routine `order2(data, a, b, swaps)`: the two indices in order and the
new value of `swaps`. -/
def order2 (data : byComplexity) (a b swaps : Nat) : Option (Nat × Nat × Nat) :=
  match byComplexity.Less data b a with
  | none => none
  | some true => some (b, a, swaps + 1)
  | some false => some (a, b, swaps)

/-- The library routine `median(data, a, b, c, swaps)`: the index of the median and
the new value of `swaps`. -/
def median (data : byComplexity) (a b c swaps : Nat) : Option (Nat × Nat) :=
  match order2 data a b swaps with
  | none => none
  | some (a₁, b₁, s₁) =>
      match order2 data b₁ c s₁ with
      | none => none
      | some (b₂, _, s₂) =>
          match order2 data a₁ b₂ s₂ with
          | none => none
          | some (_, b₃, s₃) => some (b₃, s₃)

/-- The library routine `medianAdjacent(data, a, swaps)`. -/
def medianAdjacent (data : byComplexity) (a swaps : Nat) : Option (Nat × Nat) :=
  median data (a - 1) a (a + 1) swaps

/-- The hint `choosePivot` returns for a number of swaps. -/
def hintOf (swaps : Nat) : sortedHint :=
  if swaps = 0 then sortedHint.increasingHint
  else if swaps = 4 * 3 then sortedHint.decreasingHint
  else sortedHint.unknownHint

/-- The library routine `choosePivot(data, a, b)`. -/
def choosePivot (data : byComplexity) (a b : Nat) : Option (Nat × sortedHint) :=
  if b - a ≥ 8 then
    if b - a ≥ 50 then
      match medianAdjacent data (a + (b - a) / 4 * 1) 0 with
      | none => none
      | some (i, s₁) =>
          match medianAdjacent data (a + (b - a) / 4 * 2) s₁ with
          | none => none
          | some (j, s₂) =>
              match medianAdjacent data (a + (b - a) / 4 * 3) s₂ with
              | none => none
              | some (k, s₃) =>
                  match median data i j k s₃ with
                  | none => none
                  | some (j₁, s₄) => some (j₁, hintOf s₄)
    else
      match median data (a + (b - a) / 4 * 1) (a + (b - a) / 4 * 2) (a + (b - a) / 4 * 3) 0 with
      | none => none
      | some (j₁, s₄) => some (j₁, hintOf s₄)
  else some (a + (b - a) / 4 * 2, hintOf 0)

/-- The loop of `reverseRange(data, a, b)`. -/
def reverseLoop : Nat → Nat → Nat → byComplexity → Option byComplexity
  | 0, _, _, _ => none
  | fuel + 1, i, j, data =>
      if i < j then
        match byComplexity.Swap data i j with
        | some data₁ => reverseLoop fuel (i + 1) (j - 1) data₁
        | none => none
      else some data

/-- The library routine `reverseRange(data, a, b)`. -/
def reverseRange (data : byComplexity) (a b : Nat) : Option byComplexity :=
  reverseLoop (b - a + 1) a (b - 1) data

/-- The loop `for { ... }` of `pdqsort(data, a, b, limit)` with its variables `a`, `b`,
`limit`, `wasBalanced` and `wasPartitioned`; a call `pdqsort(data, a, mid, limit)` inside
the loop starts the loop anew with both flags `true`.  `fuel` bounds the number of
rounds and nested calls.  The source overwrites `pivot` and `hint` after
`reverseRange`; here the pivot after the reversal is
`if hint = decreasingHint then (b - 1) - (pivot - a) else pivot`, and the test
`hint == increasingHint` that follows reads `hint = increasingHint || hint = decreasingHint`
on the hint that `choosePivot` returned. -/
def pdqsortLoop (next : Nat → Nat) :
    Nat → byComplexity → Nat → Nat → Nat → Bool → Bool → Option byComplexity
  | 0, _, _, _, _, _, _ => none
  | fuel + 1, data, a, b, limit, wasBalanced, wasPartitioned =>
      if b - a ≤ 12 then insertionSort data a b
      else if limit = 0 then heapSort data a b
      else
        match (if !wasBalanced then breakPatterns next data a b else some data) with
        | none => none
        | some data₁ =>
            match choosePivot data₁ a b with
            | none => none
            | some (pivot, hint) =>
                match (if hint = sortedHint.decreasingHint then reverseRange data₁ a b
                       else some data₁) with
                | none => none
                | some data₂ =>
                    match (if wasBalanced && wasPartitioned
                              && (hint = sortedHint.increasingHint
                                  || hint = sortedHint.decreasingHint) then
                            partialInsertionSort data₂ a b
                           else some (data₂, false)) with
                    | none => none
                    | some (data₃, true) => some data₃
                    | some (data₃, false) =>
                        match (if a > 0 then
                                (byComplexity.Less data₃ (a - 1)
                                  (if hint = sortedHint.decreasingHint then
                                    (b - 1) - (pivot - a) else pivot)).map (fun l => !l)
                               else some false) with
                        | none => none
                        | some true =>
                            match partitionEqual data₃ a b
                                (if hint = sortedHint.decreasingHint then
                                  (b - 1) - (pivot - a) else pivot) with
                            | none => none
                            | some (data₄, mid) =>
                                pdqsortLoop next fuel data₄ mid b
                                  (if !wasBalanced then limit - 1 else limit)
                                  wasBalanced wasPartitioned
                        | some false =>
                            match partition data₃ a b
                                (if hint = sortedHint.decreasingHint then
                                  (b - 1) - (pivot - a) else pivot) with
                            | none => none
                            | some (data₄, mid, alreadyPartitioned) =>
                                if mid - a < b - mid then
                                  match pdqsortLoop next fuel data₄ a mid
                                      (if !wasBalanced then limit - 1 else limit) true true with
                                  | none => none
                                  | some data₅ =>
                                      pdqsortLoop next fuel data₅ (mid + 1) b
                                        (if !wasBalanced then limit - 1 else limit)
                                        (decide (mid - a ≥ (b - a) / 8)) alreadyPartitioned
                                else
                                  match pdqsortLoop next fuel data₄ (mid + 1) b
                                      (if !wasBalanced then limit - 1 else limit) true true with
                                  | none => none
                                  | some data₅ =>
                                      pdqsortLoop next fuel data₅ a mid
                                        (if !wasBalanced then limit - 1 else limit)
                                        (decide (b - mid ≥ (b - a) / 8)) alreadyPartitioned

/-- The library routine `pdqsort(data, a, b, limit)`. -/
def pdqsort (next : Nat → Nat) (data : byComplexity) (a b limit : Nat) : Option byComplexity :=
  pdqsortLoop next (b - a + 1) data a b limit true true

/-- The library function `sort.Sort(data)`, as `main` calls it on `byComplexity(stats)`:
`n := data.Len(); if n <= 1 { return }; pdqsort(data, 0, n, bits.Len(uint(n)))`.
`sort.Sort` belongs to Go's standard library (package `sort`, the pattern-defeating
quicksort of Go 1.19 and later), not to this repository; it reads and changes the slice
only through the methods `Len`, `Less` and `Swap` above.  `next` is the step
`(*xorshift).Next` of the pseudo-random generator that `breakPatterns` consults. -/
def sort_Sort (next : Nat → Nat) (data : byComplexity) : Option byComplexity :=
  if byComplexity.Len data ≤ 1 then some data
  else pdqsort next data 0 (byComplexity.Len data).toNat (bitsLen (byComplexity.Len data).toNat)

/-! ### Predicates on the slice during a sort -/

/-- The complexity of the record at index `k` (0 past the end). -/
def cx (s : List stat) (k : Nat) : Int :=
  match s[k]? with
  | some x => x.Complexity
  | none => 0

/-- The records of `s'` are those of `s`, moved only inside the index range `[a, b)`. -/
def Swaps (a b : Nat) (s s' : List stat) : Prop :=
  s'.length = s.length ∧ s'.Perm s
    ∧ (∀ k, k < a ∨ b ≤ k → cx s' k = cx s k)
    ∧ (∀ Q : Int → Prop, (∀ k, a ≤ k → k < b → Q (cx s k)) → ∀ k, a ≤ k → k < b → Q (cx s' k))

/-- Complexities do not increase from one index to the next inside `[a, b)`. -/
def SortedOn (a b : Nat) (s : List stat) : Prop :=
  ∀ k, a ≤ k → k + 1 < b → cx s k ≥ cx s (k + 1)

/-- Every parent at `lo` or after is at most its children, in the heap of size `hi` that
starts at index `first`. -/
def HeapFrom (first lo hi : Nat) (s : List stat) : Prop :=
  ∀ k c, lo ≤ k → c < hi → (c = 2 * k + 1 ∨ c = 2 * k + 2) →
    cx s (first + k) ≤ cx s (first + c)

/-- The heap property holds except at the parent `r`, whose own parent is at most the
children of `r`. -/
def AlmostHeap (first lo hi r : Nat) (s : List stat) : Prop :=
  (∀ k c, lo ≤ k → k ≠ r → c < hi → (c = 2 * k + 1 ∨ c = 2 * k + 2) →
      cx s (first + k) ≤ cx s (first + c))
    ∧ (∀ p c, lo ≤ p → (r = 2 * p + 1 ∨ r = 2 * p + 2) → c < hi →
        (c = 2 * r + 1 ∨ c = 2 * r + 2) → cx s (first + p) ≤ cx s (first + c))

/-- The record before the range `[a, b)`, when there is one, is strictly more complex
than every record of the range. -/
def Barrier (a b : Nat) (s : List stat) : Prop :=
  a = 0 ∨ ∀ k, a ≤ k → k < b → cx s (a - 1) > cx s k

/-! ## Reporting (`writeStats`) -/

/-- The loop of `writeStats` at index `i`, with the remaining records and the records
written so far.  The second component is `some i` when the loop returns `i` from the
inside, `none` when it runs to its end. -/
def writeStatsLoop (top over : Int) : Nat → List stat → List stat → List stat × Option Int
  | _, [], w => (w, none)
  | i, s :: rest, w =>
      if (i : Int) = top then (w, some (i : Int))
      else if s.Complexity ≤ over then (w, some (i : Int))
      else writeStatsLoop top over (i + 1) rest (w ++ [s])

/-- The function `writeStats`, with the flag values `*top` and `*over` as arguments:
the contents of the writer afterwards and the returned count. -/
def writeStats (top over : Int) (w : List stat) (sortedStats : List stat) : List stat × Int :=
  match writeStatsLoop top over 0 sortedStats w with
  | (w₁, some i) => (w₁, i)
  | (w₁, none) => (w₁, (sortedStats.length : Int))

/-- The number of records `writeStats` writes when its loop stands at index `i` before
the records `l`: the records before the first one with complexity at most `over`, cut
at index `top` when the loop can still reach it. -/
def writtenCount (top over : Int) (i : Nat) (l : List stat) : Nat :=
  min (l.takeWhile fun s => decide (over < s.Complexity)).length
    (if (i : Int) ≤ top then (top - i).toNat else l.length)

/-- Records in non-increasing order of complexity. -/
def Descending (l : List stat) : Prop :=
  l.Pairwise fun a b => a.Complexity ≥ b.Complexity

instance (l : List stat) : Decidable (Descending l) := by
  unfold Descending
  infer_instance

/-! ## Floating point (`float64`) -/

/-- A value of Go's `float64`: not-a-number, an infinity, or the finite value
`± m * 2 ^ e`; zero is `m = 0`, every other finite value has `2 ^ 52 ≤ m < 2 ^ 53`.
(The exponent range is not modelled: quotients of 64-bit integers stay far inside it.) -/
inductive Float64 where
  | NaN
  | Inf (neg : Bool)
  | Finite (neg : Bool) (m : Nat) (e : Int)
  deriving DecidableEq, Repr

/-- The numerator and denominator of `n / (d * 2 ^ e)` as natural numbers. -/
def scaleBy (n d : Nat) (e : Int) : Nat × Nat :=
  if 0 ≤ e then (n, d * 2 ^ e.toNat) else (n * 2 ^ (-e).toNat, d)

/-- The binary exponent `e` of the positive quotient `n / d`: the integer for which
`2 ^ 52 ≤ n / (d * 2 ^ e) < 2 ^ 53`.  The first guess from the bit lengths is too large
by at most one. -/
def binaryExponent (n d : Nat) : Int :=
  let e₀ : Int := (floorLog2 n : Int) - (floorLog2 d : Int) - 52
  if (scaleBy n d e₀).1 / (scaleBy n d e₀).2 < 2 ^ 52 then e₀ - 1 else e₀

/-- The integer nearest to `N / D`, the even one when two are equally near. -/
def roundQuotient (N D : Nat) : Nat :=
  if 2 * (N % D) < D then N / D
  else if D < 2 * (N % D) then N / D + 1
  else if (N / D) % 2 = 0 then N / D
  else N / D + 1

/-- Rounding of the positive quotient `n / d` to 53 significant bits, to nearest with
ties to even (the rounding of IEEE 754 arithmetic): the pair `(m, e)` of the result
`m * 2 ^ e`. -/
def roundToFloat64 (n d : Nat) : Nat × Int :=
  let e := binaryExponent n d
  let k := roundQuotient (scaleBy n d e).1 (scaleBy n d e).2
  if k = 2 ^ 53 then (2 ^ 52, e + 1) else (k, e)

/-- The conversion `float64(n)` of an `int`. -/
def Float64.ofInt (n : Int) : Float64 :=
  if n = 0 then Float64.Finite false 0 0
  else Float64.Finite (decide (n < 0)) (roundToFloat64 n.natAbs 1).1 (roundToFloat64 n.natAbs 1).2

/-- The division `x / y` of two `float64` values.  Division by zero does not panic: it
gives an infinity, or `NaN` for `0 / 0`. -/
def Float64.div : Float64 → Float64 → Float64
  | Float64.NaN, _ => Float64.NaN
  | _, Float64.NaN => Float64.NaN
  | Float64.Inf _, Float64.Inf _ => Float64.NaN
  | Float64.Inf s, Float64.Finite t _ _ => Float64.Inf (xor s t)
  | Float64.Finite s _ _, Float64.Inf t => Float64.Finite (xor s t) 0 0
  | Float64.Finite s m e, Float64.Finite t m₁ e₁ =>
      if m₁ = 0 then
        if m = 0 then Float64.NaN else Float64.Inf (xor s t)
      else if m = 0 then Float64.Finite (xor s t) 0 0
      else
        Float64.Finite (xor s t)
          (roundToFloat64 (scaleBy m m₁ (e₁ - e)).1 (scaleBy m m₁ (e₁ - e)).2).1
          (roundToFloat64 (scaleBy m m₁ (e₁ - e)).1 (scaleBy m m₁ (e₁ - e)).2).2

/-- The rational value of a finite `float64`; `none` for `NaN` and the infinities. -/
def Float64.toRat : Float64 → Option ℚ
  | Float64.Finite neg m e => some ((if neg then -1 else 1) * (m : ℚ) * (2 : ℚ) ^ e)
  | _ => none

/-! ## Summary (`average`) and the command (`main`) -/

/-- The loop of `average`: `total += s.Complexity` for each record. -/
def averageTotal : List stat → Int → Int
  | [], total => total
  | s :: rest, total => averageTotal rest (total + s.Complexity)

/-- The function `average`: `float64(total) / float64(len(stats))`. -/
def average (stats : List stat) : Float64 :=
  Float64.div (Float64.ofInt (averageTotal stats 0)) (Float64.ofInt (stats.length : Int))

/-- What a run of `main` leaves behind: the records written to standard output, the
value printed by `showAverage` (when `-avg` is set) and the exit code. -/
structure Outcome where
  Stdout : List stat
  Average : Option Float64
  ExitCode : Int
  deriving DecidableEq, Repr

/-- The function `main` from `stats := analyze(args)` on, with the flag values `*over`,
`*top` and `*avg` as arguments and the result of `analyze` as `stats`: sort, write,
show the average when asked, and exit with 1 when `*over > 0 && written > 0`.  `next`
is the generator step that `sort.Sort` is given. -/
def main (next : Nat → Nat) (over top : Int) (avg : Bool) (stats : List stat) :
    Option Outcome :=
  match sort_Sort next stats with
  | some sorted =>
      some { Stdout := (writeStats top over [] sorted).1
             Average := if avg then some (average sorted) else none
             ExitCode := if over > 0 ∧ (writeStats top over [] sorted).2 > 0 then 1 else 0 }
  | none => none

/-! ## Sample inputs -/

/-- The declaration `func f(xs []int) { if c { }; for { }; for range xs { } }`. -/
def sampleIfTwoLoops : FuncDecl :=
  { Recv := none
    Name := "f"
    Typ := Node.other Kind.FuncType
      [Node.other Kind.FieldList
        [Node.other Kind.Field [Node.Ident "xs", Node.other Kind.ArrayType [Node.Ident "int"]]]]
    Body := some (Node.other Kind.BlockStmt
      [Node.other Kind.IfStmt [Node.Ident "c", Node.other Kind.BlockStmt []],
       Node.other Kind.ForStmt [Node.other Kind.BlockStmt []],
       Node.other Kind.RangeStmt [Node.Ident "xs", Node.other Kind.BlockStmt []]])
    Pos := 14 }

/-- The declaration `func (w *Widget) Draw() { }`. -/
def sampleDraw : FuncDecl :=
  { Recv := some { List := [{ Names := ["w"], Typ := Node.StarExpr (Node.Ident "Widget") }] }
    Name := "Draw"
    Typ := Node.other Kind.FuncType [Node.other Kind.FieldList []]
    Body := some (Node.other Kind.BlockStmt [])
    Pos := 40 }

/-- A file `package p` with a type declaration and the two sample functions. -/
def sampleFile : File :=
  { Name := "p"
    Decls := [Decl.GenDecl (Node.other Kind.GenDecl [Node.other Kind.TypeSpec
                [Node.Ident "Widget", Node.other Kind.StructType [Node.other Kind.FieldList []]]]),
              Decl.FuncDecl sampleIfTwoLoops,
              Decl.FuncDecl sampleDraw] }

/-- A file set that places every declaration of `p.go` on the line of its offset. -/
def sampleFset : FileSet := fun pos =>
  { Filename := "p.go", Offset := pos, Line := pos, Column := 1 }

/-- A record of package `p` with the given name and complexity. -/
def sampleStat (name : String) (c : Int) : stat :=
  { PkgName := "p", FuncName := name, Complexity := c,
    Pos := { Filename := "p.go", Offset := 0, Line := 1, Column := 1 } }

/-- Four records with complexities 5, 5, 3, 1. -/
def sample5531 : List stat :=
  [sampleStat "a" 5, sampleStat "b" 5, sampleStat "c" 3, sampleStat "d" 1]

/-- Three records with complexities 5, 3, 1. -/
def sample531 : List stat :=
  [sampleStat "a" 5, sampleStat "c" 3, sampleStat "d" 1]

/-- Thirteen records `f0` to `f12` with complexities 1, 1, 1, 2, 6, 9, 3, 7, 6, 2, 6, 8,
9: one more than the library sorts by insertion alone. -/
def sample13 : List stat :=
  [sampleStat "f0" 1, sampleStat "f1" 1, sampleStat "f2" 1, sampleStat "f3" 2,
   sampleStat "f4" 6, sampleStat "f5" 9, sampleStat "f6" 3, sampleStat "f7" 7,
   sampleStat "f8" 6, sampleStat "f9" 2, sampleStat "f10" 6, sampleStat "f11" 8,
   sampleStat "f12" 9]

/-- The receiver type `**T`. -/
def recvPtrPtr : Node := Node.StarExpr (Node.StarExpr (Node.Ident "T"))

/-- The receiver type `*List[T]`: a pointer to an index expression. -/
def recvPtrIndex : Node :=
  Node.StarExpr (Node.other Kind.IndexExpr [Node.Ident "List", Node.Ident "T"])

/-- The declaration `func (l *List[T]) Len() int { return 0 }`. -/
def sampleGenericLen : FuncDecl :=
  { Recv := some { List := [{ Names := ["l"], Typ := recvPtrIndex }] }
    Name := "Len"
    Typ := Node.other Kind.FuncType
      [Node.other Kind.FieldList [],
       Node.other Kind.FieldList [Node.other Kind.Field [Node.Ident "int"]]]
    Body := some (Node.other Kind.BlockStmt
      [Node.other Kind.ReturnStmt [Node.other Kind.BasicLit []]])
    Pos := 70 }

/-- Two records with complexities 4, 2. -/
def sample42 : List stat :=
  [sampleStat "a" 4, sampleStat "b" 2]

/-- Three records with complexities 2, 1, 1. -/
def sample211 : List stat :=
  [sampleStat "a" 2, sampleStat "b" 1, sampleStat "c" 1]

/-- The declaration `func () f() { }`, with an empty receiver list. -/
def sampleEmptyRecv : FuncDecl :=
  { Recv := some { List := [] }
    Name := "f"
    Typ := Node.other Kind.FuncType [Node.other Kind.FieldList []]
    Body := some (Node.other Kind.BlockStmt [])
    Pos := 9 }

/-- The function literal `func() { if c { } }`. -/
def sampleLit : Node :=
  Node.other Kind.FuncLit
    [Node.other Kind.FuncType [Node.other Kind.FieldList []],
     Node.other Kind.BlockStmt
       [Node.other Kind.IfStmt [Node.Ident "c", Node.other Kind.BlockStmt []]]]

/-- The declaration `func g() { h := func() { if c { } }; for { } }`. -/
def sampleWithLit : FuncDecl :=
  { Recv := none
    Name := "g"
    Typ := Node.other Kind.FuncType [Node.other Kind.FieldList []]
    Body := some (Node.other Kind.BlockStmt
      [Node.other Kind.AssignStmt [Node.Ident "h", sampleLit],
       Node.other Kind.ForStmt [Node.other Kind.BlockStmt []]])
    Pos := 100 }

/-- The node `StarExpr` applied `n` times around a node. -/
def nestStar : Nat → Node → Node
  | 0, x => x
  | n + 1, x => Node.StarExpr (nestStar n x)

/-- The string of `n` asterisks. -/
def asterisks : Nat → String
  | 0 => ""
  | n + 1 => "*" ++ asterisks n

/-! # Properties -/

/-! ## Lemmas on the traversal -/

theorem decisionPoints_append (l₁ l₂ : List Node) :
    decisionPoints (l₁ ++ l₂) = decisionPoints l₁ + decisionPoints l₂ := by
  simp only [decisionPoints, List.countP_append]
  omega

theorem decisionPoints_nil : decisionPoints [] = 0 := rfl

theorem decisionPoints_cons (n : Node) (l : List Node) :
    decisionPoints (n :: l) = decisionPoints [n] + decisionPoints l :=
  decisionPoints_append [n] l

theorem Visit_nil (v : complexityVisitor) : Visit v AstNode.nil = v := rfl

theorem Visit_node (v : complexityVisitor) (n : Node) :
    (Visit v (AstNode.node n)).Complexity = v.Complexity + decisionPoints [n] := by
  cases n with
  | Ident Name => simp [Visit, decisionPoints, Node.isIf, Node.isLoop, Node.isClause,
      Node.isShortCircuit]
  | StarExpr X => simp [Visit, decisionPoints, Node.isIf, Node.isLoop, Node.isClause,
      Node.isShortCircuit]
  | BinaryExpr X Op Y =>
      cases Op <;> simp [Visit, decisionPoints, Node.isIf, Node.isLoop, Node.isClause,
        Node.isShortCircuit]
  | other kind children =>
      cases kind <;> simp [Visit, decisionPoints, Node.isIf, Node.isLoop, Node.isClause,
        Node.isShortCircuit]

mutual
theorem Walk_Complexity (v : complexityVisitor) (n : Node) :
    (Walk v n).Complexity = v.Complexity + decisionPoints (Node.subtree n) := by
  cases n with
  | Ident Name =>
      rw [Walk, Visit_nil, Visit_node, Node.subtree]
  | StarExpr X =>
      rw [Walk, Visit_nil, Walk_Complexity _ X, Visit_node, Node.subtree,
        decisionPoints_cons _ (Node.subtree X)]
      omega
  | BinaryExpr X Op Y =>
      rw [Walk, Visit_nil, Walk_Complexity _ Y, Walk_Complexity _ X, Visit_node, Node.subtree,
        decisionPoints_cons _ (Node.subtree X ++ Node.subtree Y), decisionPoints_append]
      omega
  | other kind children =>
      rw [Walk, Visit_nil, walkList_Complexity _ children, Visit_node, Node.subtree,
        decisionPoints_cons _ (subtreeList children)]
      omega
theorem walkList_Complexity (v : complexityVisitor) (l : List Node) :
    (walkList v l).Complexity = v.Complexity + decisionPoints (subtreeList l) := by
  cases l with
  | nil => simp [walkList, subtreeList, decisionPoints_nil]
  | cons c cs =>
      rw [walkList, walkList_Complexity _ cs, Walk_Complexity _ c, subtreeList,
        decisionPoints_append]
      omega
end

theorem WalkFuncDecl_Complexity (v : complexityVisitor) (fn : FuncDecl) :
    (WalkFuncDecl v fn).Complexity = v.Complexity + 1 + decisionPoints fn.nodes := by
  obtain ⟨Recv, Name, Typ, Body, Pos⟩ := fn
  cases Recv <;> cases Body <;>
    simp only [WalkFuncDecl, FuncDecl.nodes, Visit_nil, Walk_Complexity, decisionPoints_append,
      List.nil_append, List.append_nil, decisionPoints_nil, Visit] <;>
    push_cast <;> omega

theorem complexity_eq (fn : FuncDecl) :
    complexity fn = 1 + (decisionPoints fn.nodes : Int) := by
  rw [complexity, WalkFuncDecl_Complexity]
  simp

/-! ## Lemmas on `buildStats` -/

theorem funcDecls_cons_func (name : String) (fn : FuncDecl) (rest : List Decl) :
    File.funcDecls { Name := name, Decls := Decl.FuncDecl fn :: rest }
      = fn :: File.funcDecls { Name := name, Decls := rest } := by
  simp [File.funcDecls]

theorem buildStatsLoop_eq (f : File) (fset : FileSet) (decls : List Decl) (stats : List stat) :
    buildStatsLoop f fset decls stats
      = (recordsOf f fset (File.funcDecls { Name := f.Name, Decls := decls })).map
          (fun recs => stats ++ recs) := by
  induction decls generalizing stats with
  | nil => simp [buildStatsLoop, File.funcDecls, recordsOf]
  | cons decl rest ih =>
      cases decl with
      | FuncDecl fn =>
          rw [funcDecls_cons_func, recordsOf, buildStatsLoop, buildStatsStep]
          cases hname : funcName fn with
          | none => simp [recordOf, hname]
          | some name =>
              simp only [recordOf, hname, ih, Option.map_some']
              cases recordsOf f fset (File.funcDecls { Name := f.Name, Decls := rest }) <;>
                simp
      | GenDecl n =>
          simpa [buildStatsLoop, buildStatsStep, File.funcDecls] using ih stats
      | BadDecl =>
          simpa [buildStatsLoop, buildStatsStep, File.funcDecls] using ih stats

theorem buildStats_eq (f : File) (fset : FileSet) (stats : List stat) :
    buildStats f fset stats
      = (recordsOf f fset f.funcDecls).map (fun recs => stats ++ recs) :=
  buildStatsLoop_eq f fset f.Decls stats

theorem recordsOf_some (f : File) (fset : FileSet) (fns : List FuncDecl)
    (h : ∀ fn ∈ fns, ∀ recv, fn.Recv = some recv → recv.List ≠ []) :
    ∃ recs, recordsOf f fset fns = some recs ∧ recs.length = fns.length := by
  induction fns with
  | nil => exact ⟨[], rfl, rfl⟩
  | cons fn rest ih =>
      obtain ⟨recs, hrecs, hlen⟩ := ih (fun g hg => h g (List.mem_cons_of_mem _ hg))
      have hfn : ∃ name, funcName fn = some name := by
        have h₁ := h fn (List.mem_cons_self _ _)
        cases hr : fn.Recv with
        | none => exact ⟨fn.Name, by simp [funcName, hr]⟩
        | some recv =>
            have h₂ := h₁ recv hr
            cases hl : recv.List with
            | nil => exact absurd hl h₂
            | cons field fields =>
                exact ⟨"(" ++ recvString field.Typ ++ ")." ++ fn.Name, by simp [funcName, hr, hl]⟩
      obtain ⟨name, hname⟩ := hfn
      refine ⟨{ PkgName := f.Name, FuncName := name, Complexity := complexity fn,
                Pos := fset fn.Pos } :: recs, ?_, by simp [hlen]⟩
      simp [recordsOf, recordOf, hname, hrecs]

theorem recordsOf_Complexity (f : File) (fset : FileSet) (fns : List FuncDecl)
    (recs : List stat) (h : recordsOf f fset fns = some recs) :
    ∀ r ∈ recs, 1 ≤ r.Complexity := by
  induction fns generalizing recs with
  | nil =>
      simp [recordsOf] at h
      subst h
      simp
  | cons fn rest ih =>
      rw [recordsOf] at h
      cases hfn : recordOf f fset fn with
      | none => simp [hfn] at h
      | some r₀ =>
          cases hrest : recordsOf f fset rest with
          | none => simp [hfn, hrest] at h
          | some recs₀ =>
              simp [hfn, hrest] at h
              subst h
              intro r hr
              rcases List.mem_cons.mp hr with rfl | hr
              · unfold recordOf at hfn
                cases hname : funcName fn with
                | none => simp [hname] at hfn
                | some name =>
                    simp [hname] at hfn
                    subst hfn
                    simp only [complexity_eq]
                    omega
              · exact ih recs₀ hrest r hr

/-! ## Complexity of a declaration -/

/-- C1: for every function or method declaration, `complexity` is 1 plus the number of
if statements, plus the number of for and range loops, plus the number of case and
communication clauses, plus the number of binary expressions with operator `&&` or
`||`, each counted over all nodes below the declaration; it is 1 for a declaration
with none of these constructs, and 4 for the function with one if and two loops. -/
theorem complexity_formula (fn : FuncDecl) :
    complexity fn
        = 1 + ((fn.nodes.countP Node.isIf + fn.nodes.countP Node.isLoop
                + fn.nodes.countP Node.isClause
                + fn.nodes.countP Node.isShortCircuit : Nat) : Int)
      ∧ ((∀ n ∈ fn.nodes, n.isIf = false ∧ n.isLoop = false ∧ n.isClause = false
              ∧ n.isShortCircuit = false) → complexity fn = 1)
      ∧ complexity sampleIfTwoLoops = 4 := by
  refine ⟨complexity_eq fn, ?_, by decide⟩
  intro h
  have h₀ : decisionPoints fn.nodes = 0 := by
    simp only [decisionPoints, Nat.add_eq_zero, List.countP_eq_zero]
    refine ⟨⟨⟨?_, ?_⟩, ?_⟩, ?_⟩ <;> intro n hn <;> simp [h n hn]
  rw [complexity_eq, h₀]
  rfl

/-- The declaration `func (w *Widget) Draw() { }` has none of the counted constructs
and complexity 1. -/
theorem complexity_formula_witness : complexity sampleDraw = 1 :=
  (complexity_formula sampleDraw).2.1 (by decide)

/-- C2: every record that `buildStats` appends has `Complexity` at least 1. -/
theorem buildStats_Complexity_ge_one (f : File) (fset : FileSet) (stats out : List stat)
    (h : buildStats f fset stats = some out) :
    ∀ r ∈ out.drop stats.length, 1 ≤ r.Complexity := by
  rw [buildStats_eq] at h
  cases hrecs : recordsOf f fset f.funcDecls with
  | none => simp [hrecs] at h
  | some recs =>
      simp [hrecs] at h
      subst h
      simpa using recordsOf_Complexity f fset f.funcDecls recs hrecs

/-- The two records appended for the sample file have complexities 4 and 1, both at
least 1. -/
theorem buildStats_Complexity_ge_one_witness :
    buildStats sampleFile sampleFset [sampleStat "old" 0]
        = some [sampleStat "old" 0,
                { PkgName := "p", FuncName := "f", Complexity := 4,
                  Pos := { Filename := "p.go", Offset := 14, Line := 14, Column := 1 } },
                { PkgName := "p", FuncName := "(*Widget).Draw", Complexity := 1,
                  Pos := { Filename := "p.go", Offset := 40, Line := 40, Column := 1 } }]
      ∧ ∀ r ∈ ([sampleStat "old" 0,
                { PkgName := "p", FuncName := "f", Complexity := 4,
                  Pos := { Filename := "p.go", Offset := 14, Line := 14, Column := 1 } },
                { PkgName := "p", FuncName := "(*Widget).Draw", Complexity := 1,
                  Pos := { Filename := "p.go", Offset := 40, Line := 40, Column := 1 } }]
                : List stat).drop [sampleStat "old" 0].length,
          1 ≤ r.Complexity :=
  ⟨rfl, buildStats_Complexity_ge_one sampleFile sampleFset [sampleStat "old" 0] _ rfl⟩

/-! ## Display names -/

/-- C3: `funcName` returns the bare name for a declaration without receiver, and
`"(" ++ R ++ ")." ++ Name` for a declaration with a receiver, where `R` is
`recvString` of the first receiver field's type: `T` for a receiver written `T` and
`*T` for a receiver written `*T`; the method `Draw` on `*Widget` is `(*Widget).Draw`. -/
theorem funcName_display :
    (∀ (name : String) (typ : Node) (body : Option Node) (pos : Int),
        funcName { Recv := none, Name := name, Typ := typ, Body := body, Pos := pos }
          = some name)
      ∧ (∀ (field : Field) (fields : List Field) (name : String) (typ : Node)
          (body : Option Node) (pos : Int),
        funcName { Recv := some { List := field :: fields }, Name := name, Typ := typ,
                   Body := body, Pos := pos }
          = some ("(" ++ recvString field.Typ ++ ")." ++ name))
      ∧ (∀ T : String, recvString (Node.Ident T) = T)
      ∧ (∀ T : String, recvString (Node.StarExpr (Node.Ident T)) = "*" ++ T)
      ∧ funcName sampleDraw = some "(*Widget).Draw" := by
  refine ⟨?_, ?_, ?_, ?_, by decide⟩
  · intro name typ body pos
    rfl
  · intro field fields name typ body pos
    simp [funcName]
  · intro T
    rfl
  · intro T
    rfl

/-- C4 (the code at the failing inputs): for the receiver type `*List[T]`, a pointer
to a non-identifier, `recvString` returns `*BADRECV` and the display name is
`(*BADRECV).Len`; for `**T` it returns `**T`.  Neither is the string `BADRECV`. -/
theorem recvString_pointer_not_BADRECV :
    recvString recvPtrIndex = "*BADRECV"
      ∧ recvString recvPtrPtr = "**T"
      ∧ funcName sampleGenericLen = some "(*BADRECV).Len"
      ∧ recvString recvPtrIndex ≠ "BADRECV"
      ∧ recvString recvPtrPtr ≠ "BADRECV" := by
  decide

/-! ## Collected records -/

/-- C5: `buildStats` returns the given records followed by one record per function or
method declaration of the file, in declaration order, each with the file's package
name, `funcName`, `complexity` and position; other declarations add nothing; applied
again to its own result for the same file it appends the same records a second time.
The result is `none` exactly where `funcName` panics on a declaration; it is defined
whenever no declaration has an empty receiver list. -/
theorem buildStats_appends (f : File) (fset : FileSet) (stats : List stat) :
    buildStats f fset stats
        = (recordsOf f fset f.funcDecls).map (fun recs => stats ++ recs)
      ∧ (buildStats f fset stats).bind (buildStats f fset)
        = (recordsOf f fset f.funcDecls).map (fun recs => stats ++ recs ++ recs)
      ∧ ((∀ fn ∈ f.funcDecls, ∀ recv, fn.Recv = some recv → recv.List ≠ []) →
          ∃ recs, recs.length = f.funcDecls.length
            ∧ buildStats f fset stats = some (stats ++ recs)
            ∧ buildStats f fset (stats ++ recs) = some (stats ++ recs ++ recs)) := by
  refine ⟨buildStats_eq f fset stats, ?_, ?_⟩
  · rw [buildStats_eq]
    cases hrecs : recordsOf f fset f.funcDecls with
    | none => simp
    | some recs => simp [buildStats_eq, hrecs]
  · intro h
    obtain ⟨recs, hrecs, hlen⟩ := recordsOf_some f fset f.funcDecls h
    exact ⟨recs, hlen, by simp [buildStats_eq, hrecs], by simp [buildStats_eq, hrecs]⟩

/-- The sample file has no empty receiver list: `buildStats` appends two records, and
appends them again when applied to its result. -/
theorem buildStats_appends_witness :
    ∃ recs, recs.length = sampleFile.funcDecls.length
      ∧ buildStats sampleFile sampleFset [sampleStat "old" 0]
          = some ([sampleStat "old" 0] ++ recs)
      ∧ buildStats sampleFile sampleFset ([sampleStat "old" 0] ++ recs)
          = some ([sampleStat "old" 0] ++ recs ++ recs) :=
  (buildStats_appends sampleFile sampleFset [sampleStat "old" 0]).2.2 (by
    intro fn hfn recv hr
    have hcases : fn = sampleIfTwoLoops ∨ fn = sampleDraw := by
      simpa [sampleFile, File.funcDecls] using hfn
    rcases hcases with rfl | rfl
    · simp [sampleIfTwoLoops] at hr
    · simp only [sampleDraw, Option.some.injEq] at hr
      subst hr
      simp)

/-! ## Lemmas on the library sort -/

theorem highBit_spec (fuel n : Nat) (h1 : 1 ≤ n) (hf : n ≤ fuel) :
    2 ^ highBit fuel n ≤ n ∧ n < 2 ^ (highBit fuel n + 1) := by
  induction fuel generalizing n with
  | zero => omega
  | succ f ih =>
      rw [highBit]
      by_cases h2 : n < 2
      · rw [if_pos h2]
        norm_num
        omega
      · simp only [h2, if_false]
        have h := ih (n / 2) (by omega) (by omega)
        simp only [pow_succ] at h ⊢
        omega

theorem floorLog2_spec (n : Nat) (h1 : 1 ≤ n) :
    2 ^ floorLog2 n ≤ n ∧ n < 2 ^ (floorLog2 n + 1) :=
  highBit_spec n n h1 (Nat.le_refl n)

/-! ### Moving records inside a range -/

theorem Less_eq (s : List stat) (i j : Nat) (hi : i < s.length) (hj : j < s.length) :
    byComplexity.Less s i j = some (decide (cx s i ≥ cx s j)) := by
  simp only [byComplexity.Less, cx, List.getElem?_eq_getElem hi, List.getElem?_eq_getElem hj]

theorem set_perm_cons (t : List stat) (j : Nat) (x : stat) (hj : j < t.length) :
    (t[j] :: t.set j x).Perm (x :: t) := by
  induction t generalizing j with
  | nil => simp at hj
  | cons y t ih =>
      cases j with
      | zero => simp only [List.getElem_cons_zero, List.set_cons_zero]; exact List.Perm.swap x y t
      | succ j =>
          simp only [List.getElem_cons_succ, List.set_cons_succ]
          have hj' : j < t.length := by simpa using hj
          exact ((List.Perm.swap y t[j] (t.set j x)).trans ((ih j hj').cons y)).trans
            (List.Perm.swap x y t)

theorem swap_perm (s : List stat) (i j : Nat) (hi : i < s.length) (hj : j < s.length) :
    ((s.set i s[j]).set j s[i]).Perm s := by
  induction s generalizing i j with
  | nil => simp at hi
  | cons y t ih =>
      cases i with
      | zero =>
          cases j with
          | zero => simp
          | succ j =>
              simp only [List.getElem_cons_succ, List.set_cons_zero, List.set_cons_succ,
                List.getElem_cons_zero]
              exact set_perm_cons t j y (by simpa using hj)
      | succ i =>
          cases j with
          | zero =>
              simp only [List.getElem_cons_zero, List.set_cons_succ, List.set_cons_zero,
                List.getElem_cons_succ]
              have hi' : i < t.length := by simpa using hi
              exact set_perm_cons t i y hi'
          | succ j =>
              simp only [List.getElem_cons_succ, List.set_cons_succ]
              exact (ih i j (by simpa using hi) (by simpa using hj)).cons y

theorem Swap_spec (s : List stat) (i j : Nat) (hi : i < s.length) (hj : j < s.length) :
    ∃ s', byComplexity.Swap s i j = some s' ∧ s'.length = s.length ∧ s'.Perm s
      ∧ ∀ k, cx s' k = if k = j then cx s i else if k = i then cx s j else cx s k := by
  refine ⟨(s.set i s[j]).set j s[i], ?_, by simp, swap_perm s i j hi hj, ?_⟩
  · simp only [byComplexity.Swap, List.getElem?_eq_getElem hi, List.getElem?_eq_getElem hj]
  · intro k
    simp only [cx, List.getElem?_set]
    by_cases hkj : k = j
    · subst hkj
      simp [hj, List.getElem?_eq_getElem hi]
    · by_cases hki : k = i
      · subst hki
        have : ¬ j = k := fun h => hkj h.symm
        simp [this, hkj, hi, List.getElem?_eq_getElem hj]
      · have h1 : ¬ j = k := fun h => hkj h.symm
        have h2 : ¬ i = k := fun h => hki h.symm
        simp [h1, h2, hkj, hki]

theorem Swaps.refl (a b : Nat) (s : List stat) : Swaps a b s s :=
  ⟨rfl, List.Perm.refl _, fun _ _ => rfl, fun _ h => h⟩

theorem Swaps.trans {a b : Nat} {s₁ s₂ s₃ : List stat} (h₁ : Swaps a b s₁ s₂)
    (h₂ : Swaps a b s₂ s₃) : Swaps a b s₁ s₃ :=
  ⟨h₂.1.trans h₁.1, h₂.2.1.trans h₁.2.1,
    fun k hk => (h₂.2.2.1 k hk).trans (h₁.2.2.1 k hk),
    fun Q hQ => h₂.2.2.2 Q (h₁.2.2.2 Q hQ)⟩

theorem Swaps.mono {a b a' b' : Nat} {s s' : List stat} (h : Swaps a b s s') (ha : a' ≤ a)
    (hb : b ≤ b') : Swaps a' b' s s' := by
  refine ⟨h.1, h.2.1, fun k hk => h.2.2.1 k (by omega), ?_⟩
  intro Q hQ k hk₁ hk₂
  by_cases hin : a ≤ k ∧ k < b
  · exact h.2.2.2 Q (fun k' h₁ h₂ => hQ k' (by omega) (by omega)) k hin.1 hin.2
  · rw [h.2.2.1 k (by omega)]
    exact hQ k hk₁ hk₂

theorem Swaps.of_swap {a b : Nat} {s s' : List stat} {i j : Nat}
    (hlen : s'.length = s.length) (hperm : s'.Perm s)
    (hcx : ∀ k, cx s' k = if k = j then cx s i else if k = i then cx s j else cx s k)
    (hi₁ : a ≤ i) (hi₂ : i < b) (hj₁ : a ≤ j) (hj₂ : j < b) : Swaps a b s s' := by
  refine ⟨hlen, hperm, ?_, ?_⟩
  · intro k hk
    rw [hcx]
    have h1 : k ≠ j := by omega
    have h2 : k ≠ i := by omega
    simp [h1, h2]
  · intro Q hQ k hk₁ hk₂
    rw [hcx]
    split
    · exact hQ i hi₁ hi₂
    · split
      · exact hQ j hj₁ hj₂
      · exact hQ k hk₁ hk₂

/-- A swap inside `[a, b)` succeeds; the statement used throughout. -/
theorem Swap_in (a b : Nat) (s : List stat) (i j : Nat) (hb : b ≤ s.length)
    (hi₁ : a ≤ i) (hi₂ : i < b) (hj₁ : a ≤ j) (hj₂ : j < b) :
    ∃ s', byComplexity.Swap s i j = some s' ∧ Swaps a b s s'
      ∧ ∀ k, cx s' k = if k = j then cx s i else if k = i then cx s j else cx s k := by
  obtain ⟨s', hs, hlen, hperm, hcx⟩ := Swap_spec s i j (by omega) (by omega)
  exact ⟨s', hs, Swaps.of_swap hlen hperm hcx hi₁ hi₂ hj₁ hj₂, hcx⟩

theorem SortedOn.le {a b : Nat} {s : List stat} (h : SortedOn a b s) (i j : Nat)
    (hi : a ≤ i) (hij : i ≤ j) (hj : j < b) : cx s i ≥ cx s j := by
  induction j with
  | zero =>
      have : i = 0 := by omega
      subst this
      exact le_refl _
  | succ j ih =>
      by_cases hij' : i = j + 1
      · subst hij'
        exact le_refl _
      · have h₁ := ih (by omega) (by omega)
        have h₂ := h j (by omega) hj
        omega

theorem SortedOn.of_cx_eq {a b : Nat} {s s' : List stat} (h : SortedOn a b s)
    (hcx : ∀ k, a ≤ k → k < b → cx s' k = cx s k) : SortedOn a b s' := by
  intro k hk₁ hk₂
  rw [hcx k hk₁ (by omega), hcx (k + 1) (by omega) hk₂]
  exact h k hk₁ hk₂

theorem cx_getElem (s : List stat) (k : Nat) (h : k < s.length) :
    cx s k = s[k].Complexity := by
  simp [cx, List.getElem?_eq_getElem h]

theorem SortedOn.pairwise {s : List stat} (h : SortedOn 0 s.length s) :
    s.Pairwise fun a b => a.Complexity ≥ b.Complexity := by
  rw [List.pairwise_iff_getElem]
  intro i j hi hj hij
  have := h.le i j (Nat.zero_le _) (by omega) hj
  rw [cx_getElem s i hi, cx_getElem s j hj] at this
  exact this

/-! ### Insertion sort on a range -/

theorem insertionInner_spec (lo a J : Nat) (hlo : lo ≤ a) :
    ∀ (j : Nat) (s : List stat), a ≤ j → j ≤ J → J < s.length →
      (lo < a → cx s (a - 1) > cx s j) →
      (∀ k, a ≤ k → k + 1 ≤ J → k ≠ j → k + 1 ≠ j → cx s k ≥ cx s (k + 1)) →
      (a < j → j < J → cx s (j - 1) ≥ cx s (j + 1)) →
      (j < J → cx s j ≥ cx s (j + 1)) →
      ∃ s', insertionInner lo j s = some s' ∧ Swaps a (J + 1) s s' ∧ SortedOn a (J + 1) s' := by
  intro j
  induction j with
  | zero =>
      intro s ha hJ hlen hbar hex hskip hnext
      refine ⟨s, rfl, Swaps.refl _ _ _, ?_⟩
      intro k hk₁ hk₂
      by_cases hk : k = 0
      · subst hk
        exact hnext (by omega)
      · exact hex k hk₁ (by omega) hk (by omega)
  | succ j ih =>
      intro s ha hJ hlen hbar hex hskip hnext
      -- the range is sorted as soon as the moving record stays where it is
      have hstop : (a ≤ j → cx s j ≥ cx s (j + 1)) → SortedOn a (J + 1) s := by
        intro hpair k hk₁ hk₂
        by_cases hk : k = j + 1
        · subst hk
          exact hnext (by omega)
        · by_cases hk' : k + 1 = j + 1
          · have : k = j := by omega
            subst this
            exact hpair hk₁
          · exact hex k hk₁ (by omega) hk hk'
      rw [insertionInner]
      by_cases hlt : lo < j + 1
      · rw [if_pos hlt, Less_eq s (j + 1) j (by omega) (by omega)]
        by_cases haj : a ≤ j
        · by_cases hless : cx s (j + 1) ≥ cx s j
          · simp only [hless, decide_True]
            obtain ⟨s₁, hs₁, hsw, hcx⟩ :=
              Swap_in a (J + 1) s (j + 1) j (by omega) (by omega) (by omega) haj (by omega)
            rw [hs₁]
            have hlen₁ : s₁.length = s.length := hsw.1
            obtain ⟨s₂, hs₂, hsw₂, hsorted₂⟩ := ih s₁ haj (by omega) (by omega)
              (by
                intro h
                have := hbar h
                rw [hcx, hcx]
                have h1 : a - 1 ≠ j := by omega
                have h2 : a - 1 ≠ j + 1 := by omega
                simp only [h1, h2, if_false, if_true]
                exact this)
              (by
                intro k hk₁ hk₂ hk₃ hk₄
                rw [hcx, hcx]
                by_cases hk : k = j + 1
                · subst hk
                  have h1 : j + 1 + 1 ≠ j := by omega
                  have h2 : j + 1 + 1 ≠ j + 1 := by omega
                  have h3 : j + 1 ≠ j := by omega
                  simp only [h1, h2, h3, if_false, if_true]
                  have := hskip (by omega) (by omega)
                  simpa using this
                · have h1 : k + 1 ≠ j + 1 := by omega
                  simp only [hk, hk₃, hk₄, h1, if_false]
                  exact hex k hk₁ hk₂ hk h1)
              (by
                intro h₁ h₂
                rw [hcx, hcx]
                have h1 : j - 1 ≠ j := by omega
                have h2 : j - 1 ≠ j + 1 := by omega
                have h3 : j + 1 ≠ j := by omega
                simp only [h1, h2, h3, if_false, if_true]
                have := hex (j - 1) (by omega) (by omega) (by omega) (by omega)
                rwa [show j - 1 + 1 = j by omega] at this)
              (by
                intro _
                rw [hcx, hcx]
                have h3 : j + 1 ≠ j := by omega
                simp only [h3, if_false, if_true]
                exact hless)
            exact ⟨s₂, hs₂, hsw.trans hsw₂, hsorted₂⟩
          · simp only [hless, decide_False]
            exact ⟨s, rfl, Swaps.refl _ _ _, hstop (fun _ => by omega)⟩
        · -- the record stands at the lower end of the range
          have haeq : a = j + 1 := by omega
          have hbar' := hbar (by omega)
          have hless : ¬ cx s (j + 1) ≥ cx s j := by
            rw [show a - 1 = j by omega] at hbar'
            omega
          simp only [hless, decide_False]
          exact ⟨s, rfl, Swaps.refl _ _ _, hstop (fun h => absurd h haj)⟩
      · rw [if_neg hlt]
        exact ⟨s, rfl, Swaps.refl _ _ _, hstop (fun h => by omega)⟩

theorem insertionOuter_spec (a b : Nat) :
    ∀ (n i : Nat) (s : List stat), a + 1 ≤ i → i + n = b → b ≤ s.length → SortedOn a i s →
      ∃ s', insertionOuter a n i s = some s' ∧ Swaps a b s s' ∧ SortedOn a b s' := by
  intro n
  induction n with
  | zero =>
      intro i s hi hn hb hs
      have : i = b := by omega
      subst this
      exact ⟨s, rfl, Swaps.refl _ _ _, hs⟩
  | succ n ih =>
      intro i s hi hn hb hs
      rw [insertionOuter]
      obtain ⟨s₁, hs₁, hsw₁, hsorted₁⟩ := insertionInner_spec a a i (le_refl a) i s (by omega)
        (le_refl i) (by omega) (fun h => absurd h (lt_irrefl a))
        (fun k hk₁ hk₂ hk₃ hk₄ => hs k hk₁ (by omega))
        (fun _ h => absurd h (lt_irrefl i)) (fun h => absurd h (lt_irrefl i))
      rw [hs₁]
      obtain ⟨s₂, hs₂, hsw₂, hsorted₂⟩ := ih (i + 1) s₁ (by omega) (by omega)
        (by rw [hsw₁.1]; exact hb) hsorted₁
      exact ⟨s₂, hs₂, (hsw₁.mono (le_refl a) (by omega)).trans hsw₂, hsorted₂⟩

theorem insertionSort_spec (s : List stat) (a b : Nat) (hb : b ≤ s.length) :
    ∃ s', insertionSort s a b = some s' ∧ Swaps a b s s' ∧ SortedOn a b s' := by
  rw [insertionSort]
  by_cases hab : a + 1 ≤ b
  · exact insertionOuter_spec a b (b - (a + 1)) (a + 1) s (le_refl _) (by omega) hb
      (fun k hk₁ hk₂ => by omega)
  · have : b - (a + 1) = 0 := by omega
    rw [this]
    exact ⟨s, rfl, Swaps.refl _ _ _, fun k hk₁ hk₂ => by omega⟩

/-! ### Partition -/

theorem scanLess_spec (s : List stat) (a j : Nat) (hj : j < s.length) (ha : a < s.length) :
    ∀ (fuel i : Nat), i ≤ j + 1 → j + 1 - i < fuel →
      ∃ i₁, scanLess s a j fuel i = some i₁ ∧ i ≤ i₁ ∧ i₁ ≤ j + 1
        ∧ (∀ k, i ≤ k → k < i₁ → cx s k ≥ cx s a) ∧ (i₁ ≤ j → cx s i₁ < cx s a) := by
  intro fuel
  induction fuel with
  | zero => intro i _ h; omega
  | succ fuel ih =>
      intro i hi hf
      rw [scanLess]
      by_cases hij : i ≤ j
      · rw [if_pos hij, Less_eq s i a (by omega) ha]
        by_cases hless : cx s i ≥ cx s a
        · simp only [hless, decide_True]
          obtain ⟨i₁, h₁, h₂, h₃, h₄, h₅⟩ := ih (i + 1) (by omega) (by omega)
          refine ⟨i₁, h₁, by omega, h₃, ?_, h₅⟩
          intro k hk₁ hk₂
          by_cases hk : k = i
          · subst hk; exact hless
          · exact h₄ k (by omega) hk₂
        · simp only [hless, decide_False]
          exact ⟨i, rfl, le_refl _, by omega, fun k h₁ h₂ => by omega, fun _ => by omega⟩
      · rw [if_neg hij]
        exact ⟨i, rfl, le_refl _, hi, fun k h₁ h₂ => by omega, fun h => absurd h hij⟩

theorem scanNotLess_spec (s : List stat) (a i : Nat) (ha : a < s.length) (hi : 1 ≤ i) :
    ∀ (fuel j : Nat), i ≤ j + 1 → j < s.length → j + 1 - i < fuel →
      ∃ j₁, scanNotLess s a i fuel j = some j₁ ∧ j₁ ≤ j ∧ i ≤ j₁ + 1
        ∧ (∀ k, j₁ < k → k ≤ j → cx s k < cx s a) ∧ (i ≤ j₁ → cx s j₁ ≥ cx s a) := by
  intro fuel
  induction fuel with
  | zero => intro j _ _ h; omega
  | succ fuel ih =>
      intro j hij hj hf
      rw [scanNotLess]
      by_cases hle : i ≤ j
      · rw [if_pos hle, Less_eq s j a hj ha]
        by_cases hless : cx s j ≥ cx s a
        · simp only [hless, decide_True]
          exact ⟨j, rfl, le_refl _, by omega, fun k h₁ h₂ => by omega, fun _ => hless⟩
        · simp only [hless, decide_False]
          obtain ⟨j₁, h₁, h₂, h₃, h₄, h₅⟩ := ih (j - 1) (by omega) (by omega) (by omega)
          refine ⟨j₁, h₁, by omega, h₃, ?_, h₅⟩
          intro k hk₁ hk₂
          by_cases hk : k = j
          · subst hk; omega
          · exact h₄ k hk₁ (by omega)
      · rw [if_neg hle]
        exact ⟨j, rfl, le_refl _, hij, fun k h₁ h₂ => by omega, fun h => absurd h hle⟩

theorem partitionLoop_spec (a b : Nat) :
    ∀ (fuel i j : Nat) (s : List stat), a + 1 ≤ i → i ≤ j + 1 → j + 1 ≤ b → b ≤ s.length →
      j + 1 - i < fuel →
      (∀ k, a + 1 ≤ k → k < i → cx s k ≥ cx s a) →
      (∀ k, j < k → k < b → cx s k < cx s a) →
      ∃ s' j', partitionLoop a fuel i j s = some (s', j') ∧ Swaps (a + 1) b s s'
        ∧ a ≤ j' ∧ j' < b
        ∧ (∀ k, a + 1 ≤ k → k < j' + 1 → cx s' k ≥ cx s' a)
        ∧ (∀ k, j' < k → k < b → cx s' k < cx s' a) := by
  intro fuel
  induction fuel with
  | zero => intro i j s _ _ _ _ h; omega
  | succ fuel ih =>
      intro i j s hi hij hjb hb hf hL hR
      rw [partitionLoop]
      obtain ⟨i₁, hi₁, h₁, h₂, h₃, h₄⟩ :=
        scanLess_spec s a j (by omega) (by omega) (s.length + 1) i hij (by omega)
      rw [hi₁]
      obtain ⟨j₁, hj₁, g₁, g₂, g₃, g₄⟩ :=
        scanNotLess_spec s a i₁ (by omega) (by omega) (s.length + 1) j h₂ (by omega) (by omega)
      simp only [hj₁]
      have hL₁ : ∀ k, a + 1 ≤ k → k < i₁ → cx s k ≥ cx s a := by
        intro k hk₁ hk₂
        by_cases hk : k < i
        · exact hL k hk₁ hk
        · exact h₃ k (by omega) hk₂
      have hR₁ : ∀ k, j₁ < k → k < b → cx s k < cx s a := by
        intro k hk₁ hk₂
        by_cases hk : k ≤ j
        · exact g₃ k hk₁ hk
        · exact hR k (by omega) hk₂
      by_cases hgt : i₁ > j₁
      · rw [if_pos hgt]
        refine ⟨s, j₁, rfl, Swaps.refl _ _ _, by omega, by omega, ?_, hR₁⟩
        intro k hk₁ hk₂
        exact hL₁ k hk₁ (by omega)
      · rw [if_neg hgt]
        have hne : i₁ ≠ j₁ := by
          intro h
          have := h₄ (by omega)
          have := g₄ (by omega)
          subst h
          omega
        obtain ⟨s₁, hs₁, hsw, hcx⟩ :=
          Swap_in (a + 1) b s i₁ j₁ hb (by omega) (by omega) (by omega) (by omega)
        simp only [hs₁]
        have hcxa : cx s₁ a = cx s a := hsw.2.2.1 a (by omega)
        obtain ⟨s₂, j₂, hs₂, hsw₂, r₁, r₂, r₃, r₄⟩ := ih (i₁ + 1) (j₁ - 1) s₁ (by omega)
          (by omega) (by omega) (by rw [hsw.1]; exact hb) (by omega)
          (by
            intro k hk₁ hk₂
            rw [hcxa, hcx]
            by_cases hk : k = i₁
            · subst hk
              have : k ≠ j₁ := hne
              simp only [this, if_false, if_true]
              exact g₄ (by omega)
            · have : k ≠ j₁ := by omega
              simp only [this, hk, if_false]
              exact hL₁ k hk₁ (by omega))
          (by
            intro k hk₁ hk₂
            rw [hcxa, hcx]
            by_cases hk : k = j₁
            · subst hk
              simp only [if_true]
              exact h₄ (by omega)
            · have : k ≠ i₁ := by omega
              simp only [this, hk, if_false]
              exact hR₁ k (by omega) hk₂)
        exact ⟨s₂, j₂, hs₂, hsw.trans hsw₂, r₁, r₂, r₃, r₄⟩

/-- The last step of `partition`: the pivot, kept at index `a`, goes to index `j`. -/
theorem partition_finish (a b j : Nat) (s : List stat) (hb : b ≤ s.length) (haj : a ≤ j)
    (hjb : j < b)
    (hL : ∀ k, a + 1 ≤ k → k < j + 1 → cx s k ≥ cx s a)
    (hR : ∀ k, j < k → k < b → cx s k < cx s a) :
    ∃ s', byComplexity.Swap s j a = some s' ∧ Swaps a b s s'
      ∧ (∀ k, a ≤ k → k < j → cx s' k ≥ cx s' j)
      ∧ (∀ k, j < k → k < b → cx s' k < cx s' j) := by
  obtain ⟨s', hs', hsw, hcx⟩ := Swap_in a b s j a hb haj hjb (le_refl a) (by omega)
  refine ⟨s', hs', hsw, ?_, ?_⟩
  · intro k hk₁ hk₂
    rw [hcx k, hcx j]
    by_cases hja : j = a
    · omega
    · simp only [hja, if_false, if_true]
      by_cases hk : k = a
      · subst hk
        simp only [if_true]
        exact hL j (by omega) (by omega)
      · have : k ≠ j := by omega
        simp only [hk, this, if_false]
        exact hL k (by omega) (by omega)
  · intro k hk₁ hk₂
    rw [hcx k, hcx j]
    have h1 : k ≠ a := by omega
    have h2 : k ≠ j := by omega
    simp only [h1, h2, if_false]
    by_cases hja : j = a
    · subst hja
      simp only [if_true]
      exact hR k hk₁ hk₂
    · simp only [hja, if_false, if_true]
      exact hR k hk₁ hk₂

theorem partition_spec (s : List stat) (a b pivot : Nat) (hab : a + 1 < b) (hb : b ≤ s.length)
    (hp₁ : a ≤ pivot) (hp₂ : pivot < b) :
    ∃ s' mid ap, partition s a b pivot = some (s', mid, ap) ∧ Swaps a b s s'
      ∧ a ≤ mid ∧ mid < b
      ∧ (∀ k, a ≤ k → k < mid → cx s' k ≥ cx s' mid)
      ∧ (∀ k, mid < k → k < b → cx s' k < cx s' mid) := by
  rw [partition]
  obtain ⟨s₁, hs₁, hsw₁, -⟩ := Swap_in a b s a pivot hb (le_refl a) (by omega) hp₁ hp₂
  have hlen₁ : s₁.length = s.length := hsw₁.1
  simp only [hs₁]
  obtain ⟨i, hi, h₁, h₂, h₃, h₄⟩ :=
    scanLess_spec s₁ a (b - 1) (by omega) (by omega) (s₁.length + 1) (a + 1) (by omega)
      (by omega)
  simp only [hi]
  obtain ⟨j, hj, g₁, g₂, g₃, g₄⟩ :=
    scanNotLess_spec s₁ a i (by omega) (by omega) (s₁.length + 1) (b - 1) h₂ (by omega)
      (by omega)
  simp only [hj]
  have hR : ∀ k, j < k → k < b → cx s₁ k < cx s₁ a := fun k hk₁ hk₂ => g₃ k hk₁ (by omega)
  by_cases hgt : i > j
  · rw [if_pos hgt]
    obtain ⟨s₂, hs₂, hsw₂, r₁, r₂⟩ := partition_finish a b j s₁ (by omega) (by omega) (by omega)
      (fun k hk₁ hk₂ => h₃ k hk₁ (by omega)) hR
    simp only [hs₂]
    exact ⟨s₂, j, true, rfl, hsw₁.trans hsw₂, by omega, by omega, r₁, r₂⟩
  · rw [if_neg hgt]
    have hne : i ≠ j := by
      intro h
      have := h₄ (by omega)
      have := g₄ (by omega)
      subst h
      omega
    obtain ⟨s₂, hs₂, hsw₂, hcx⟩ :=
      Swap_in (a + 1) b s₁ i j (by omega) (by omega) (by omega) (by omega) (by omega)
    simp only [hs₂]
    have hcxa : cx s₂ a = cx s₁ a := hsw₂.2.2.1 a (by omega)
    have hlen₂ : s₂.length = s₁.length := hsw₂.1
    obtain ⟨s₃, j₁, hs₃, hsw₃, r₁, r₂, r₃, r₄⟩ := partitionLoop_spec a b (s₂.length + 1)
      (i + 1) (j - 1) s₂ (by omega) (by omega) (by omega) (by rw [hsw₂.1]; omega) (by omega)
      (by
        intro k hk₁ hk₂
        rw [hcxa, hcx]
        by_cases hk : k = i
        · subst hk
          have : k ≠ j := hne
          simp only [this, if_false, if_true]
          exact g₄ (by omega)
        · have : k ≠ j := by omega
          simp only [this, hk, if_false]
          exact h₃ k hk₁ (by omega))
      (by
        intro k hk₁ hk₂
        rw [hcxa, hcx]
        by_cases hk : k = j
        · subst hk
          simp only [if_true]
          exact h₄ (by omega)
        · have : k ≠ i := by omega
          simp only [this, hk, if_false]
          exact hR k (by omega) hk₂)
    simp only [hs₃]
    obtain ⟨s₄, hs₄, hsw₄, q₁, q₂⟩ := partition_finish a b j₁ s₃
      (by rw [hsw₃.1, hsw₂.1]; omega) r₁ r₂ r₃ r₄
    simp only [hs₄]
    exact ⟨s₄, j₁, false, rfl,
      ((hsw₁.trans (hsw₂.mono (by omega) (le_refl b))).trans
        (hsw₃.mono (by omega) (le_refl b))).trans hsw₄, r₁, r₂, q₁, q₂⟩

/-! ### Heap sort -/

theorem sift_choice (hi first r : Nat) (s : List stat) (h : 2 * r + 1 < hi)
    (hlen : first + hi ≤ s.length) :
    ∃ nxt : Bool,
      (if 2 * r + 1 + 1 < hi then
          byComplexity.Less s (first + (2 * r + 1)) (first + (2 * r + 1) + 1)
        else some false) = some nxt
      ∧ (if nxt then 2 * r + 1 + 1 else 2 * r + 1) < hi
      ∧ ((if nxt then 2 * r + 1 + 1 else 2 * r + 1) = 2 * r + 1
          ∨ (if nxt then 2 * r + 1 + 1 else 2 * r + 1) = 2 * r + 2)
      ∧ ∀ c, c < hi → (c = 2 * r + 1 ∨ c = 2 * r + 2) →
          cx s (first + (if nxt then 2 * r + 1 + 1 else 2 * r + 1)) ≤ cx s (first + c) := by
  by_cases h2 : 2 * r + 1 + 1 < hi
  · rw [if_pos h2, Less_eq s _ _ (by omega) (by omega)]
    by_cases hless : cx s (first + (2 * r + 1)) ≥ cx s (first + (2 * r + 1) + 1)
    · refine ⟨true, by simp [hless], by simpa using h2, Or.inr (by simp), ?_⟩
      intro c hc hcc
      simp only [if_true]
      rcases hcc with rfl | rfl
      · rw [show first + (2 * r + 1 + 1) = first + (2 * r + 1) + 1 by omega]
        exact hless
      · exact le_refl _
    · refine ⟨false, by simp [hless], by simpa using h, Or.inl (by simp), ?_⟩
      intro c hc hcc
      simp only [Bool.false_eq_true, if_false]
      rcases hcc with rfl | rfl
      · exact le_refl _
      · rw [show first + (2 * r + 2) = first + (2 * r + 1) + 1 by omega]
        omega
  · rw [if_neg h2]
    refine ⟨false, rfl, by simpa using h, Or.inl (by simp), ?_⟩
    intro c hc hcc
    simp only [Bool.false_eq_true, if_false]
    rcases hcc with rfl | rfl
    · exact le_refl _
    · omega

theorem siftDownLoop_spec (hi first lo : Nat) :
    ∀ (fuel r : Nat) (s : List stat), first + hi ≤ s.length → lo ≤ r → 0 < fuel →
      hi < fuel + r → AlmostHeap first lo hi r s →
      ∃ s', siftDownLoop hi first fuel r s = some s' ∧ Swaps first (first + hi) s s'
        ∧ HeapFrom first lo hi s' := by
  intro fuel
  induction fuel with
  | zero =>
      intro r s hlen hlo hpos hf hheap
      omega
  | succ fuel ih =>
      intro r s hlen hlo _ hf hheap
      rw [siftDownLoop]
      by_cases hleaf : 2 * r + 1 ≥ hi
      · rw [if_pos hleaf]
        refine ⟨s, rfl, Swaps.refl _ _ _, ?_⟩
        intro k c hk hc hcc
        by_cases hkr : k = r
        · subst hkr; omega
        · exact hheap.1 k c hk hkr hc hcc
      · rw [if_neg hleaf]
        obtain ⟨nxt, hnxt, hc₁, hc₂, hmin⟩ := sift_choice hi first r s (by omega) hlen
        rw [hnxt]
        simp only []
        generalize hcdef : (if nxt = true then 2 * r + 1 + 1 else 2 * r + 1) = c at hc₁ hc₂ hmin
        rw [Less_eq s _ _ (by omega) (by omega)]
        by_cases hless : cx s (first + r) ≥ cx s (first + c)
        · simp only [hless, decide_True]
          obtain ⟨s₁, hs₁, hsw, hcx⟩ := Swap_in first (first + hi) s (first + r) (first + c)
            hlen (by omega) (by omega) (by omega) (by omega)
          simp only [hs₁]
          have hv : ∀ k, cx s₁ (first + k)
              = if k = c then cx s (first + r) else if k = r then cx s (first + c)
                else cx s (first + k) := by
            intro k
            rw [hcx]
            by_cases h1 : k = c
            · subst h1; simp
            · by_cases h2 : k = r
              · subst h2
                have : first + k ≠ first + c := by omega
                simp [this, h1]
              · have h3 : first + k ≠ first + c := by omega
                have h4 : first + k ≠ first + r := by omega
                simp [h1, h2, h3, h4]
          obtain ⟨s₂, hs₂, hsw₂, hheap₂⟩ := ih c s₁ (by rw [hsw.1]; exact hlen) (by omega)
            (by omega) (by omega)
            (by
              refine ⟨?_, ?_⟩
              · intro k c' hk hkc hc' hcc'
                rw [hv k, hv c']
                have hkc' : k ≠ c := hkc
                by_cases hkr : k = r
                · subst hkr
                  have hcr : c' ≠ k := by omega
                  simp only [hkc', if_false, if_true]
                  by_cases hcc : c' = c
                  · subst hcc
                    simp only [if_true]
                    exact hless
                  · simp only [hcc, hcr, if_false]
                    exact hmin c' hc' hcc'
                · simp only [hkc', hkr, if_false]
                  have hc'c : c' ≠ c := by omega
                  by_cases hc'r : c' = r
                  · subst hc'r
                    simp only [hc'c, if_false, if_true]
                    exact hheap.2 k c hk (by omega) hc₁ hc₂
                  · simp only [hc'c, hc'r, if_false]
                    exact hheap.1 k c' hk hkr hc' hcc'
              · intro p g hp hpc hg hgc
                have hpr : p = r := by omega
                subst hpr
                rw [hv p, hv g]
                have h1 : p ≠ c := by omega
                have h2 : g ≠ c := by omega
                have h3 : g ≠ p := by omega
                simp only [h1, h2, h3, if_false, if_true]
                exact hheap.1 c g (by omega) (by omega) hg hgc)
          exact ⟨s₂, hs₂, hsw.trans hsw₂, hheap₂⟩
        · simp only [hless, decide_False]
          refine ⟨s, rfl, Swaps.refl _ _ _, ?_⟩
          intro k c' hk hc' hcc'
          by_cases hkr : k = r
          · subst hkr
            have := hmin c' hc' hcc'
            omega
          · exact hheap.1 k c' hk hkr hc' hcc'

theorem siftDown_spec (hi first lo r : Nat) (s : List stat) (hlen : first + hi ≤ s.length)
    (hlo : lo ≤ r) (hheap : AlmostHeap first lo hi r s) :
    ∃ s', siftDown s r hi first = some s' ∧ Swaps first (first + hi) s s'
      ∧ HeapFrom first lo hi s' :=
  siftDownLoop_spec hi first lo (hi + 1) r s hlen hlo (by omega) (by omega) hheap

theorem HeapFrom.almost {first i hi : Nat} {s : List stat} (h : HeapFrom first (i + 1) hi s) :
    AlmostHeap first i hi i s := by
  refine ⟨?_, ?_⟩
  · intro k c hk hki hc hcc
    exact h k c (by omega) hc hcc
  · intro p c hp hpc hc hcc
    omega

theorem heapBuild_spec (hi first : Nat) :
    ∀ (i : Nat) (s : List stat), first + hi ≤ s.length → HeapFrom first (i + 1) hi s →
      ∃ s', heapBuild hi first i s = some s' ∧ Swaps first (first + hi) s s'
        ∧ HeapFrom first 0 hi s' := by
  intro i
  induction i with
  | zero =>
      intro s hlen hheap
      rw [heapBuild]
      exact siftDown_spec hi first 0 0 s hlen (le_refl _) hheap.almost
  | succ i ih =>
      intro s hlen hheap
      rw [heapBuild]
      obtain ⟨s₁, hs₁, hsw₁, hheap₁⟩ :=
        siftDown_spec hi first (i + 1) (i + 1) s hlen (le_refl _) hheap.almost
      simp only [hs₁]
      obtain ⟨s₂, hs₂, hsw₂, hheap₂⟩ := ih s₁ (by rw [hsw₁.1]; exact hlen) hheap₁
      exact ⟨s₂, hs₂, hsw₁.trans hsw₂, hheap₂⟩

theorem HeapFrom.root_le {first m : Nat} {s : List stat} (h : HeapFrom first 0 m s) :
    ∀ k, k < m → cx s (first + 0) ≤ cx s (first + k) := by
  intro k
  induction k using Nat.strong_induction_on with
  | _ k ih =>
      intro hk
      rcases Nat.eq_zero_or_pos k with h0 | hpos
      · subst h0; exact le_refl _
      · have h₁ := ih ((k - 1) / 2) (by omega) (by omega)
        have h₂ := h ((k - 1) / 2) k (Nat.zero_le _) hk (by omega)
        omega

theorem heapPop_spec (first hi : Nat) :
    ∀ (m : Nat) (s : List stat), m ≤ hi → first + hi ≤ s.length → HeapFrom first 0 m s →
      SortedOn (first + m) (first + hi) s →
      (m < hi → ∀ k, k < m → cx s (first + k) ≥ cx s (first + m)) →
      ∃ s', heapPop first m s = some s' ∧ Swaps first (first + hi) s s'
        ∧ SortedOn first (first + hi) s' := by
  intro m
  induction m with
  | zero =>
      intro s _ _ _ hsorted _
      exact ⟨s, rfl, Swaps.refl _ _ _, by simpa using hsorted⟩
  | succ i ih =>
      intro s hm hlen hheap hsorted hbound
      rw [heapPop]
      obtain ⟨s₁, hs₁, hsw₁, hcx₁⟩ := Swap_in first (first + (i + 1)) s first (first + i)
        (by omega) (le_refl _) (by omega) (by omega) (by omega)
      simp only [hs₁]
      have hlen₁ : s₁.length = s.length := hsw₁.1
      have hroot := hheap.root_le
      simp only [Nat.add_zero] at hroot
      have halmost : AlmostHeap first 0 i 0 s₁ := by
        refine ⟨?_, ?_⟩
        · intro k c _ hk0 hc hcc
          rw [hcx₁ (first + k), hcx₁ (first + c)]
          have h1 : first + k ≠ first + i := by omega
          have h2 : first + k ≠ first := by omega
          have h3 : first + c ≠ first + i := by omega
          have h4 : first + c ≠ first := by omega
          simp only [h1, h2, h3, h4, if_false]
          exact hheap k c (Nat.zero_le _) (by omega) hcc
        · intro p c _ hpc
          omega
      obtain ⟨s₂, hs₂, hsw₂, hheap₂⟩ :=
        siftDown_spec i first 0 0 s₁ (by omega) (le_refl _) halmost
      simp only [hs₂]
      have hlen₂ : s₂.length = s₁.length := hsw₂.1
      have hout : ∀ k, first + i ≤ k → cx s₂ k = cx s₁ k :=
        fun k hk => hsw₂.2.2.1 k (Or.inr hk)
      have hlast : cx s₂ (first + i) = cx s first := by
        rw [hout _ (le_refl _), hcx₁]
        simp
      have hrest : ∀ k, first + i < k → cx s₂ k = cx s k := by
        intro k hk
        rw [hout k (by omega), hcx₁]
        have h1 : k ≠ first + i := by omega
        have h2 : k ≠ first := by omega
        simp only [h1, h2, if_false]
      obtain ⟨s₃, hs₃, hsw₃, hsorted₃⟩ := ih s₂ (by omega) (by omega) hheap₂
        (by
          intro k hk₁ hk₂
          rcases Nat.eq_or_lt_of_le hk₁ with heq | hlt
          · subst heq
            rw [hlast, hrest _ (by omega)]
            have := hbound (by omega) 0 (by omega)
            simpa [Nat.add_assoc] using this
          · rw [hrest k hlt, hrest (k + 1) (by omega)]
            exact hsorted k (by omega) hk₂)
        (by
          intro _ k hk
          rw [hlast]
          refine hsw₂.2.2.2 (fun x => x ≥ cx s first) ?_ (first + k) (by omega) (by omega)
          intro j hj₁ hj₂
          rw [hcx₁]
          have h1 : j ≠ first + i := by omega
          simp only [h1, if_false]
          by_cases h2 : j = first
          · simp only [h2, if_true]
            exact hroot i (by omega)
          · simp only [h2, if_false]
            have := hroot (j - first) (by omega)
            rwa [show first + (j - first) = j by omega] at this)
      exact ⟨s₃, hs₃, (hsw₁.mono (le_refl _) (by omega)).trans
        ((hsw₂.mono (le_refl _) (by omega)).trans hsw₃), hsorted₃⟩

theorem heapSort_spec (s : List stat) (a b : Nat) (hab : a ≤ b) (hb : b ≤ s.length) :
    ∃ s', heapSort s a b = some s' ∧ Swaps a b s s' ∧ SortedOn a b s' := by
  rw [heapSort]
  obtain ⟨s₁, hs₁, hsw₁, hheap₁⟩ := heapBuild_spec (b - a) a ((b - a - 1) / 2) s (by omega)
    (by
      intro k c hk hc hcc
      omega)
  simp only [hs₁]
  have hlen₁ : s₁.length = s.length := hsw₁.1
  obtain ⟨s₂, hs₂, hsw₂, hsorted₂⟩ := heapPop_spec a (b - a) (b - a) s₁ (le_refl _) (by omega)
    hheap₁ (by intro k hk₁ hk₂; omega) (by intro h; omega)
  have hab' : a + (b - a) = b := by omega
  rw [hab'] at hsw₁ hsw₂ hsorted₂
  exact ⟨s₂, hs₂, hsw₁.trans hsw₂, hsorted₂⟩

theorem Barrier.swaps {a b : Nat} {s s' : List stat} (h : Barrier a b s)
    (hsw : Swaps a b s s') : Barrier a b s' := by
  rcases Nat.eq_zero_or_pos a with h0 | hpos
  · exact Or.inl h0
  · rcases h with h0 | h
    · exact Or.inl h0
    · right
      rw [hsw.2.2.1 (a - 1) (by omega)]
      exact hsw.2.2.2 (fun x => cx s (a - 1) > x) h

/-! ### Choice of the pivot -/

theorem order2_spec (s : List stat) (lo hi a b swaps : Nat) (hhi : hi ≤ s.length)
    (ha₁ : lo ≤ a) (ha₂ : a < hi) (hb₁ : lo ≤ b) (hb₂ : b < hi) :
    ∃ x y sw, order2 s a b swaps = some (x, y, sw) ∧ lo ≤ x ∧ x < hi ∧ lo ≤ y ∧ y < hi := by
  rw [order2, Less_eq s b a (by omega) (by omega)]
  by_cases h : cx s b ≥ cx s a
  · simp only [h, decide_True]
    exact ⟨b, a, swaps + 1, rfl, hb₁, hb₂, ha₁, ha₂⟩
  · simp only [h, decide_False]
    exact ⟨a, b, swaps, rfl, ha₁, ha₂, hb₁, hb₂⟩

theorem median_spec (s : List stat) (lo hi a b c swaps : Nat) (hhi : hi ≤ s.length)
    (ha₁ : lo ≤ a) (ha₂ : a < hi) (hb₁ : lo ≤ b) (hb₂ : b < hi) (hc₁ : lo ≤ c) (hc₂ : c < hi) :
    ∃ m sw, median s a b c swaps = some (m, sw) ∧ lo ≤ m ∧ m < hi := by
  rw [median]
  obtain ⟨a₁, b₁, s₁, h₁, ha₁₁, ha₁₂, hb₁₁, hb₁₂⟩ :=
    order2_spec s lo hi a b swaps hhi ha₁ ha₂ hb₁ hb₂
  simp only [h₁]
  obtain ⟨b₂, c₂, s₂, h₂, hb₂₁, hb₂₂, _, _⟩ :=
    order2_spec s lo hi b₁ c s₁ hhi hb₁₁ hb₁₂ hc₁ hc₂
  simp only [h₂]
  obtain ⟨a₃, b₃, s₃, h₃, _, _, hb₃₁, hb₃₂⟩ :=
    order2_spec s lo hi a₁ b₂ s₂ hhi ha₁₁ ha₁₂ hb₂₁ hb₂₂
  simp only [h₃]
  exact ⟨b₃, s₃, rfl, hb₃₁, hb₃₂⟩

theorem medianAdjacent_spec (s : List stat) (lo hi a swaps : Nat) (hhi : hi ≤ s.length)
    (ha₁ : lo + 1 ≤ a) (ha₂ : a + 1 < hi) :
    ∃ m sw, medianAdjacent s a swaps = some (m, sw) ∧ lo ≤ m ∧ m < hi :=
  median_spec s lo hi (a - 1) a (a + 1) swaps hhi (by omega) (by omega) (by omega) (by omega)
    (by omega) (by omega)

theorem choosePivot_spec (s : List stat) (a b : Nat) (hab : a < b) (hb : b ≤ s.length) :
    ∃ p h, choosePivot s a b = some (p, h) ∧ a ≤ p ∧ p < b := by
  rw [choosePivot]
  by_cases h8 : b - a ≥ 8
  · rw [if_pos h8]
    by_cases h50 : b - a ≥ 50
    · rw [if_pos h50]
      obtain ⟨i, s₁, h₁, hi₁, hi₂⟩ := medianAdjacent_spec s a b (a + (b - a) / 4 * 1) 0 hb
        (by omega) (by omega)
      simp only [h₁]
      obtain ⟨j, s₂, h₂, hj₁, hj₂⟩ := medianAdjacent_spec s a b (a + (b - a) / 4 * 2) s₁ hb
        (by omega) (by omega)
      simp only [h₂]
      obtain ⟨k, s₃, h₃, hk₁, hk₂⟩ := medianAdjacent_spec s a b (a + (b - a) / 4 * 3) s₂ hb
        (by omega) (by omega)
      simp only [h₃]
      obtain ⟨m, s₄, h₄, hm₁, hm₂⟩ := median_spec s a b i j k s₃ hb hi₁ hi₂ hj₁ hj₂ hk₁ hk₂
      simp only [h₄]
      exact ⟨m, _, rfl, hm₁, hm₂⟩
    · rw [if_neg h50]
      obtain ⟨m, s₄, h₄, hm₁, hm₂⟩ := median_spec s a b (a + (b - a) / 4 * 1)
        (a + (b - a) / 4 * 2) (a + (b - a) / 4 * 3) 0 hb (by omega) (by omega) (by omega)
        (by omega) (by omega) (by omega)
      simp only [h₄]
      exact ⟨m, _, rfl, hm₁, hm₂⟩
  · rw [if_neg h8]
    exact ⟨_, _, rfl, by omega, by omega⟩

/-! ### Reversal and pattern breaking -/

theorem reverseLoop_spec (a b : Nat) :
    ∀ (fuel i j : Nat) (s : List stat), a ≤ i → j < b → b ≤ s.length → j - i < fuel →
      ∃ s', reverseLoop fuel i j s = some s' ∧ Swaps a b s s' := by
  intro fuel
  induction fuel with
  | zero => intro i j s _ _ _ hf; omega
  | succ fuel ih =>
      intro i j s hi hj hb hf
      rw [reverseLoop]
      by_cases hij : i < j
      · rw [if_pos hij]
        obtain ⟨s₁, hs₁, hsw₁, _⟩ := Swap_in a b s i j hb hi (by omega) (by omega) hj
        simp only [hs₁]
        obtain ⟨s₂, hs₂, hsw₂⟩ := ih (i + 1) (j - 1) s₁ (by omega) (by omega)
          (by rw [hsw₁.1]; exact hb) (by omega)
        exact ⟨s₂, hs₂, hsw₁.trans hsw₂⟩
      · rw [if_neg hij]
        exact ⟨s, rfl, Swaps.refl _ _ _⟩

theorem reverseRange_spec (s : List stat) (a b : Nat) (hab : a < b) (hb : b ≤ s.length) :
    ∃ s', reverseRange s a b = some s' ∧ Swaps a b s s' :=
  reverseLoop_spec a b (b - a + 1) a (b - 1) s (le_refl _) (by omega) hb (by omega)

theorem bitsLen_spec (n : Nat) (h1 : 1 ≤ n) : 2 ^ bitsLen n ≤ 2 * n ∧ 0 < 2 ^ bitsLen n := by
  have h := floorLog2_spec n h1
  rw [bitsLen, if_neg (by omega)]
  refine ⟨?_, Nat.pow_pos (by decide)⟩
  rw [pow_succ]
  omega

theorem breakPatternsLoop_spec (next : Nat → Nat) (a b length modulus idx : Nat)
    (hlen : a + length = b) (hmod₁ : 0 < modulus) (hmod₂ : modulus ≤ 2 * length) :
    ∀ (n i random : Nat) (s : List stat), b ≤ s.length → a + 1 ≤ idx → idx - 1 + i + n ≤ b →
      ∃ s', breakPatternsLoop next a length modulus idx n i random s = some s'
        ∧ Swaps a b s s' := by
  intro n
  induction n with
  | zero => intro i random s _ _ _; exact ⟨s, rfl, Swaps.refl _ _ _⟩
  | succ n ih =>
      intro i random s hb hidx hi
      rw [breakPatternsLoop]
      have hand : (next random) &&& (modulus - 1) ≤ modulus - 1 := Nat.and_le_right
      obtain ⟨s₁, hs₁, hsw₁, _⟩ := Swap_in a b s (idx - 1 + i)
        (a + (if ((next random) &&& (modulus - 1)) ≥ length then
                ((next random) &&& (modulus - 1)) - length
              else ((next random) &&& (modulus - 1)))) hb (by omega) (by omega) (by omega)
        (by split <;> omega)
      simp only [hs₁]
      obtain ⟨s₂, hs₂, hsw₂⟩ := ih (i + 1) (next random) s₁ (by rw [hsw₁.1]; exact hb) hidx
        (by omega)
      exact ⟨s₂, hs₂, hsw₁.trans hsw₂⟩

theorem breakPatterns_spec (next : Nat → Nat) (s : List stat) (a b : Nat) (hab : a ≤ b)
    (hb : b ≤ s.length) :
    ∃ s', breakPatterns next s a b = some s' ∧ Swaps a b s s' := by
  rw [breakPatterns]
  by_cases h8 : b - a ≥ 8
  · rw [if_pos h8]
    have hbits := bitsLen_spec (b - a) (by omega)
    exact breakPatternsLoop_spec next a b (b - a) (2 ^ bitsLen (b - a))
      (a + (b - a) / 4 * 2 - 1) (by omega) hbits.2 hbits.1 3 0 (b - a) s hb (by omega) (by omega)
  · rw [if_neg h8]
    exact ⟨s, rfl, Swaps.refl _ _ _⟩

/-! ### Partial insertion sort -/

theorem scanOrdered_spec (s : List stat) (b : Nat) (hb : b ≤ s.length) :
    ∀ (fuel i : Nat), 1 ≤ i → i ≤ b → b - i < fuel →
      ∃ i₁, scanOrdered s b fuel i = some i₁ ∧ i ≤ i₁ ∧ i₁ ≤ b
        ∧ ∀ k, i ≤ k → k < i₁ → cx s (k - 1) > cx s k := by
  intro fuel
  induction fuel with
  | zero => intro i _ _ hf; omega
  | succ fuel ih =>
      intro i hi₁ hi₂ hf
      rw [scanOrdered]
      by_cases hib : i < b
      · rw [if_pos hib, Less_eq s i (i - 1) (by omega) (by omega)]
        by_cases hless : cx s i ≥ cx s (i - 1)
        · simp only [hless, decide_True]
          exact ⟨i, rfl, le_refl _, hi₂, fun k h₁ h₂ => by omega⟩
        · simp only [hless, decide_False]
          obtain ⟨i₁, h₁, h₂, h₃, h₄⟩ := ih (i + 1) (by omega) (by omega) (by omega)
          refine ⟨i₁, h₁, by omega, h₃, ?_⟩
          intro k hk₁ hk₂
          rcases Nat.eq_or_lt_of_le hk₁ with heq | hlt
          · subst heq; omega
          · exact h₄ k (by omega) hk₂
      · rw [if_neg hib]
        exact ⟨i, rfl, le_refl _, hi₂, fun k h₁ h₂ => by omega⟩

theorem shiftRight_spec (c b : Nat) :
    ∀ (fuel j : Nat) (s : List stat), c + 1 ≤ j → b ≤ s.length → b - j < fuel →
      ∃ s', shiftRight b fuel j s = some s' ∧ Swaps c b s s' := by
  intro fuel
  induction fuel with
  | zero => intro j s _ _ hf; omega
  | succ fuel ih =>
      intro j s hj hb hf
      rw [shiftRight]
      by_cases hjb : j < b
      · rw [if_pos hjb, Less_eq s j (j - 1) (by omega) (by omega)]
        by_cases hless : cx s j ≥ cx s (j - 1)
        · simp only [hless, decide_True]
          obtain ⟨s₁, hs₁, hsw₁, _⟩ := Swap_in c b s j (j - 1) hb (by omega) hjb (by omega)
            (by omega)
          simp only [hs₁]
          obtain ⟨s₂, hs₂, hsw₂⟩ := ih (j + 1) s₁ (by omega) (by rw [hsw₁.1]; exact hb)
            (by omega)
          exact ⟨s₂, hs₂, hsw₁.trans hsw₂⟩
        · simp only [hless, decide_False]
          exact ⟨s, rfl, Swaps.refl _ _ _⟩
      · rw [if_neg hjb]
        exact ⟨s, rfl, Swaps.refl _ _ _⟩

theorem partialInsertionLoop_spec (a b : Nat) :
    ∀ (steps i : Nat) (s : List stat), a + 1 ≤ i → i ≤ b → b ≤ s.length → Barrier a b s →
      SortedOn a i s →
      ∃ s' r, partialInsertionLoop a b steps i s = some (s', r) ∧ Swaps a b s s'
        ∧ (r = true → SortedOn a b s') := by
  intro steps
  induction steps with
  | zero =>
      intro i s _ _ _ _ _
      exact ⟨s, false, rfl, Swaps.refl _ _ _, by simp⟩
  | succ steps ih =>
      intro i s hi₁ hi₂ hb hbar hsorted
      rw [partialInsertionLoop]
      obtain ⟨i₁, hscan, hi₁₁, hi₁₂, hdesc⟩ :=
        scanOrdered_spec s b hb (s.length + 1) i (by omega) hi₂ (by omega)
      simp only [hscan]
      have hsorted₁ : SortedOn a i₁ s := by
        intro k hk₁ hk₂
        by_cases hki : k + 1 < i
        · exact hsorted k hk₁ hki
        · have := hdesc (k + 1) (by omega) hk₂
          simp only [Nat.add_sub_cancel] at this
          omega
      by_cases heq : i₁ = b
      · rw [if_pos heq]
        exact ⟨s, true, rfl, Swaps.refl _ _ _, fun _ => heq ▸ hsorted₁⟩
      · rw [if_neg heq]
        by_cases h50 : b - a < 50
        · rw [if_pos h50]
          exact ⟨s, false, rfl, Swaps.refl _ _ _, by simp⟩
        · rw [if_neg h50]
          obtain ⟨s₁, hs₁, hsw₁, hcx₁⟩ := Swap_in a b s i₁ (i₁ - 1) hb (by omega) (by omega)
            (by omega) (by omega)
          simp only [hs₁]
          have hlen₁ : s₁.length = s.length := hsw₁.1
          have hbar₁ := hbar.swaps hsw₁
          have hsorted₂ : ∃ s₂, (if i₁ - a ≥ 2 then insertionInner 0 (i₁ - 1) s₁
              else some s₁) = some s₂ ∧ Swaps a b s₁ s₂ ∧ SortedOn a i₁ s₂ := by
            by_cases h2 : i₁ - a ≥ 2
            · rw [if_pos h2]
              obtain ⟨s₂, hs₂, hsw₂, hso₂⟩ := insertionInner_spec 0 a (i₁ - 1) (Nat.zero_le _)
                (i₁ - 1) s₁ (by omega) (le_refl _) (by omega)
                (by
                  intro ha
                  rcases hbar₁ with h0 | hbar₁
                  · omega
                  · exact hbar₁ (i₁ - 1) (by omega) (by omega))
                (by
                  intro k hk₁ hk₂ hk₃ hk₄
                  rw [hcx₁ k, hcx₁ (k + 1)]
                  have e1 : k ≠ i₁ - 1 := hk₃
                  have e2 : k ≠ i₁ := by omega
                  have e3 : k + 1 ≠ i₁ - 1 := hk₄
                  have e4 : k + 1 ≠ i₁ := by omega
                  simp only [e1, e2, e3, e4, if_false]
                  exact hsorted₁ k hk₁ (by omega))
                (by intro _ h; omega) (by intro h; omega)
              rw [show i₁ - 1 + 1 = i₁ by omega] at hsw₂ hso₂
              exact ⟨s₂, hs₂, hsw₂.mono (le_refl _) (by omega), hso₂⟩
            · rw [if_neg h2]
              exact ⟨s₁, rfl, Swaps.refl _ _ _, fun k h₁ h₂ => by omega⟩
          obtain ⟨s₂, hs₂, hsw₂, hso₂⟩ := hsorted₂
          simp only [hs₂]
          have hlen₂ : s₂.length = s₁.length := hsw₂.1
          have hshift : ∃ s₃, (if b - i₁ ≥ 2 then shiftRight b (s₂.length + 1) (i₁ + 1) s₂
              else some s₂) = some s₃ ∧ Swaps i₁ b s₂ s₃ := by
            by_cases h2 : b - i₁ ≥ 2
            · rw [if_pos h2]
              exact shiftRight_spec i₁ b (s₂.length + 1) (i₁ + 1) s₂ (le_refl _) (by omega)
                (by omega)
            · rw [if_neg h2]
              exact ⟨s₂, rfl, Swaps.refl _ _ _⟩
          obtain ⟨s₃, hs₃, hsw₃⟩ := hshift
          simp only [hs₃]
          have hsw₁₃ : Swaps a b s s₃ :=
            hsw₁.trans (hsw₂.trans (hsw₃.mono (by omega) (le_refl _)))
          obtain ⟨s₄, r, hs₄, hsw₄, hr⟩ := ih i₁ s₃ (by omega) hi₁₂
            (by rw [hsw₁₃.1]; exact hb) (hbar.swaps hsw₁₃)
            (hso₂.of_cx_eq (fun k _ hk => hsw₃.2.2.1 k (Or.inl hk)))
          exact ⟨s₄, r, hs₄, hsw₁₃.trans hsw₄, hr⟩

theorem partialInsertionSort_spec (s : List stat) (a b : Nat) (hab : a < b) (hb : b ≤ s.length)
    (hbar : Barrier a b s) :
    ∃ s' r, partialInsertionSort s a b = some (s', r) ∧ Swaps a b s s'
      ∧ (r = true → SortedOn a b s') :=
  partialInsertionLoop_spec a b 5 (a + 1) s (le_refl _) (by omega) hb hbar
    (fun k h₁ h₂ => by omega)

/-! ### The loop of `pdqsort` -/

theorem Barrier.left {a b mid : Nat} {s : List stat} (h : Barrier a b s) (hmid : mid ≤ b) :
    Barrier a mid s := by
  rcases h with h0 | h
  · exact Or.inl h0
  · exact Or.inr fun k h₁ h₂ => h k h₁ (by omega)

theorem SortedOn.join {a b mid : Nat} {s : List stat} (p : Int) (hmid : cx s mid = p)
    (hleft : ∀ k, a ≤ k → k < mid → cx s k ≥ p) (hright : ∀ k, mid < k → k < b → cx s k < p)
    (h₁ : SortedOn a mid s) (h₂ : SortedOn (mid + 1) b s) : SortedOn a b s := by
  intro k hk₁ hk₂
  rcases Nat.lt_trichotomy (k + 1) mid with hlt | heq | hgt
  · exact h₁ k hk₁ hlt
  · rw [heq, hmid]
    exact hleft k hk₁ (by omega)
  · rcases Nat.eq_or_lt_of_le (Nat.lt_succ_iff.mp hgt) with heq | hlt
    · subst heq
      rw [hmid]
      have := hright (mid + 1) (by omega) (by omega)
      omega
    · exact h₂ k (by omega) hk₂

theorem guard_false (s : List stat) (a b p : Nat) (hb : b ≤ s.length) (hp₁ : a ≤ p)
    (hp₂ : p < b) (hbar : Barrier a b s) :
    (if a > 0 then (byComplexity.Less s (a - 1) p).map (fun l => !l) else some false)
      = some false := by
  by_cases ha : a > 0
  · rw [if_pos ha, Less_eq s (a - 1) p (by omega) (by omega)]
    rcases hbar with h0 | hbar
    · omega
    · have := hbar p hp₁ hp₂
      have hge : cx s (a - 1) ≥ cx s p := by omega
      simp [hge]
  · rw [if_neg ha]

theorem pdqsortLoop_spec (next : Nat → Nat) :
    ∀ (fuel : Nat) (s : List stat) (a b limit : Nat) (wasBalanced wasPartitioned : Bool),
      a ≤ b → b ≤ s.length → b - a < fuel → Barrier a b s →
      ∃ s', pdqsortLoop next fuel s a b limit wasBalanced wasPartitioned = some s'
        ∧ Swaps a b s s' ∧ SortedOn a b s' := by
  intro fuel
  induction fuel with
  | zero => intro s a b limit wb wp _ _ hf; omega
  | succ fuel ih =>
      intro s a b limit wb wp hab hb hf hbar
      rw [pdqsortLoop]
      by_cases h12 : b - a ≤ 12
      · rw [if_pos h12]
        exact insertionSort_spec s a b hb
      rw [if_neg h12]
      by_cases hlimit : limit = 0
      · rw [if_pos hlimit]
        exact heapSort_spec s a b hab hb
      rw [if_neg hlimit]
      -- breakPatterns
      have h₁ : ∃ s₁, (if !wb then breakPatterns next s a b else some s) = some s₁
          ∧ Swaps a b s s₁ := by
        cases wb
        · exact breakPatterns_spec next s a b hab hb
        · exact ⟨s, rfl, Swaps.refl _ _ _⟩
      obtain ⟨s₁, hs₁, hsw₁⟩ := h₁
      simp only [hs₁]
      have hb₁ : b ≤ s₁.length := by rw [hsw₁.1]; exact hb
      -- choosePivot
      obtain ⟨pivot, hint, hpv, hpv₁, hpv₂⟩ := choosePivot_spec s₁ a b (by omega) hb₁
      simp only [hpv]
      -- reverseRange
      have h₂ : ∃ s₂, (if hint = sortedHint.decreasingHint then reverseRange s₁ a b
          else some s₁) = some s₂ ∧ Swaps a b s₁ s₂ := by
        by_cases hd : hint = sortedHint.decreasingHint
        · rw [if_pos hd]
          exact reverseRange_spec s₁ a b (by omega) hb₁
        · rw [if_neg hd]
          exact ⟨s₁, rfl, Swaps.refl _ _ _⟩
      obtain ⟨s₂, hs₂, hsw₂⟩ := h₂
      simp only [hs₂]
      have hb₂ : b ≤ s₂.length := by rw [hsw₂.1]; exact hb₁
      have hbar₂ : Barrier a b s₂ := hbar.swaps (hsw₁.trans hsw₂)
      -- partialInsertionSort
      have h₃ : ∃ s₃ r, (if wb && wp && (hint = sortedHint.increasingHint
            || hint = sortedHint.decreasingHint) then partialInsertionSort s₂ a b
          else some (s₂, false)) = some (s₃, r) ∧ Swaps a b s₂ s₃
            ∧ (r = true → SortedOn a b s₃) := by
        split
        · exact partialInsertionSort_spec s₂ a b (by omega) hb₂ hbar₂
        · exact ⟨s₂, false, rfl, Swaps.refl _ _ _, by simp⟩
      obtain ⟨s₃, r, hs₃, hsw₃, hr⟩ := h₃
      have hsw₀₃ : Swaps a b s s₃ := hsw₁.trans (hsw₂.trans hsw₃)
      cases r with
      | true =>
          simp only [hs₃]
          exact ⟨s₃, rfl, hsw₀₃, hr rfl⟩
      | false =>
          simp only [hs₃]
          have hb₃ : b ≤ s₃.length := by rw [hsw₀₃.1]; exact hb
          have hbar₃ : Barrier a b s₃ := hbar.swaps hsw₀₃
          generalize hpdef : (if hint = sortedHint.decreasingHint then b - 1 - (pivot - a)
            else pivot) = p
          have hp : a ≤ p ∧ p < b := by
            rw [← hpdef]
            split <;> omega
          rw [guard_false s₃ a b p hb₃ hp.1 hp.2 hbar₃]
          simp only []
          obtain ⟨s₄, mid, ap, hs₄, hsw₄, hmid₁, hmid₂, hleft, hright⟩ :=
            partition_spec s₃ a b p (by omega) hb₃ hp.1 hp.2
          simp only [hs₄]
          have hsw₀₄ : Swaps a b s s₄ := hsw₀₃.trans hsw₄
          have hb₄ : b ≤ s₄.length := by rw [hsw₀₄.1]; exact hb
          have hbar₄ : Barrier a b s₄ := hbar.swaps hsw₀₄
          generalize (if !wb then limit - 1 else limit) = limit₁
          by_cases hside : mid - a < b - mid
          · rw [if_pos hside]
            obtain ⟨s₅, hs₅, hsw₅, hso₅⟩ := ih s₄ a mid limit₁ true true hmid₁ (by omega)
              (by omega) (hbar₄.left (by omega))
            simp only [hs₅]
            have hmid₅ : cx s₅ mid = cx s₄ mid := hsw₅.2.2.1 mid (Or.inr (le_refl _))
            obtain ⟨s₆, hs₆, hsw₆, hso₆⟩ := ih s₅ (mid + 1) b limit₁
              (decide (mid - a ≥ (b - a) / 8)) ap (by omega) (by rw [hsw₅.1]; exact hb₄)
              (by omega)
              (Or.inr (by
                intro k hk₁ hk₂
                rw [Nat.add_sub_cancel, hmid₅, hsw₅.2.2.1 k (Or.inr (by omega))]
                exact hright k (by omega) hk₂))
            refine ⟨s₆, hs₆, hsw₀₄.trans ((hsw₅.mono (le_refl _) (by omega)).trans
              (hsw₆.mono (by omega) (le_refl _))), ?_⟩
            refine SortedOn.join (cx s₄ mid) ?_ ?_ ?_ ?_ hso₆
            · rw [hsw₆.2.2.1 mid (Or.inl (by omega)), hmid₅]
            · intro k hk₁ hk₂
              rw [hsw₆.2.2.1 k (Or.inl (by omega))]
              exact hsw₅.2.2.2 (fun x => x ≥ cx s₄ mid) hleft k hk₁ hk₂
            · intro k hk₁ hk₂
              refine hsw₆.2.2.2 (fun x => x < cx s₄ mid) ?_ k (by omega) hk₂
              intro j hj₁ hj₂
              rw [hsw₅.2.2.1 j (Or.inr (by omega))]
              exact hright j (by omega) hj₂
            · exact hso₅.of_cx_eq (fun k _ hk => hsw₆.2.2.1 k (Or.inl (by omega)))
          · rw [if_neg hside]
            obtain ⟨s₅, hs₅, hsw₅, hso₅⟩ := ih s₄ (mid + 1) b limit₁ true true (by omega) hb₄
              (by omega)
              (Or.inr (by
                intro k hk₁ hk₂
                rw [Nat.add_sub_cancel]
                exact hright k (by omega) hk₂))
            simp only [hs₅]
            have hmid₅ : cx s₅ mid = cx s₄ mid := hsw₅.2.2.1 mid (Or.inl (by omega))
            have hbar₅ : Barrier a b s₅ := hbar₄.swaps (hsw₅.mono (by omega) (le_refl _))
            obtain ⟨s₆, hs₆, hsw₆, hso₆⟩ := ih s₅ a mid limit₁
              (decide (b - mid ≥ (b - a) / 8)) ap hmid₁ (by rw [hsw₅.1]; omega)
              (by omega) (hbar₅.left (by omega))
            refine ⟨s₆, hs₆, hsw₀₄.trans ((hsw₅.mono (by omega) (le_refl _)).trans
              (hsw₆.mono (le_refl _) (by omega))), ?_⟩
            refine SortedOn.join (cx s₄ mid) ?_ ?_ ?_ hso₆ ?_
            · rw [hsw₆.2.2.1 mid (Or.inr (le_refl _)), hmid₅]
            · intro k hk₁ hk₂
              refine hsw₆.2.2.2 (fun x => x ≥ cx s₄ mid) ?_ k hk₁ hk₂
              intro j hj₁ hj₂
              rw [hsw₅.2.2.1 j (Or.inl (by omega))]
              exact hleft j hj₁ hj₂
            · intro k hk₁ hk₂
              rw [hsw₆.2.2.1 k (Or.inr (by omega))]
              exact hsw₅.2.2.2 (fun x => x < cx s₄ mid)
                (fun j hj₁ hj₂ => hright j (by omega) hj₂) k (by omega) hk₂
            · exact hso₅.of_cx_eq (fun k hk _ => hsw₆.2.2.1 k (Or.inr (by omega)))

theorem pdqsort_spec (next : Nat → Nat) (s : List stat) (a b limit : Nat) (hab : a ≤ b)
    (hb : b ≤ s.length) (hbar : Barrier a b s) :
    ∃ s', pdqsort next s a b limit = some s' ∧ Swaps a b s s' ∧ SortedOn a b s' :=
  pdqsortLoop_spec next (b - a + 1) s a b limit true true hab hb (by omega) hbar

theorem sort_Sort_spec (next : Nat → Nat) (stats : List stat) :
    ∃ out, sort_Sort next stats = some out ∧ out.Perm stats ∧ Descending out := by
  rw [sort_Sort]
  by_cases h1 : byComplexity.Len stats ≤ 1
  · rw [if_pos h1]
    refine ⟨stats, rfl, List.Perm.refl _, ?_⟩
    have hlen : stats.length ≤ 1 := by
      simp only [byComplexity.Len] at h1
      exact_mod_cast h1
    unfold Descending
    match stats, hlen with
    | [], _ => exact List.Pairwise.nil
    | [x], _ => exact List.pairwise_singleton _ x
  · rw [if_neg h1]
    have hlen : (byComplexity.Len stats).toNat = stats.length := by
      simp [byComplexity.Len]
    rw [hlen]
    obtain ⟨out, hout, hsw, hso⟩ := pdqsort_spec next stats 0 stats.length
      (bitsLen stats.length) (Nat.zero_le _) (le_refl _) (Or.inl rfl)
    refine ⟨out, hout, hsw.2.1, ?_⟩
    unfold Descending
    apply SortedOn.pairwise
    rw [hsw.1]
    exact hso

/-! ## Order of the sorted records -/

/-- On the thirteen records of `sample13` the library partitions around a pivot before
it sorts the parts by insertion; the output is in non-increasing order, and the records
of equal complexity are neither in input order (`f5`, `f12` are; `f8`, `f4`, `f10` are
not) nor in reversed input order, which is what `insertionSort` alone leaves. -/
theorem sort_Sort_sample13 :
    (∀ next : Nat → Nat, sort_Sort next sample13
        = some
            [sampleStat "f5" 9, sampleStat "f12" 9, sampleStat "f11" 8, sampleStat "f7" 7,
             sampleStat "f8" 6, sampleStat "f4" 6, sampleStat "f10" 6, sampleStat "f6" 3,
             sampleStat "f3" 2, sampleStat "f9" 2, sampleStat "f1" 1, sampleStat "f2" 1,
             sampleStat "f0" 1])
      ∧ insertionSort sample13 0 13
        = some
            [sampleStat "f12" 9, sampleStat "f5" 9, sampleStat "f11" 8, sampleStat "f7" 7,
             sampleStat "f10" 6, sampleStat "f8" 6, sampleStat "f4" 6, sampleStat "f6" 3,
             sampleStat "f9" 2, sampleStat "f3" 2, sampleStat "f2" 1, sampleStat "f1" 1,
             sampleStat "f0" 1] :=
  ⟨fun _ => rfl, rfl⟩

/-- C6: `sort.Sort(byComplexity(stats))` returns, for every list of records (and
whatever the generator step of the library is), a permutation of the input whose
`Complexity` is non-increasing from first to last. -/
theorem sort_Sort_perm_descending (next : Nat → Nat) (stats : List stat) :
    ∃ out, sort_Sort next stats = some out ∧ out.Perm stats
      ∧ out.Pairwise (fun a b => a.Complexity ≥ b.Complexity) :=
  sort_Sort_spec next stats

/-- C7 (counterexample): two records of equal complexity 5, `a` before `b` in the
input, come out of the sort with `b` before `a`, whatever the generator step of the
library is. -/
theorem sort_Sort_not_stable :
    (sampleStat "a" 5).Complexity = (sampleStat "b" 5).Complexity
      ∧ (∀ next : Nat → Nat, sort_Sort next [sampleStat "a" 5, sampleStat "b" 5]
          = some [sampleStat "b" 5, sampleStat "a" 5])
      ∧ [sampleStat "b" 5, sampleStat "a" 5].filter (fun s => decide (s.Complexity = 5))
          ≠ [sampleStat "a" 5, sampleStat "b" 5].filter (fun s => decide (s.Complexity = 5)) :=
  ⟨by decide, fun _ => rfl, by decide⟩

/-- C7 (amended): the sorted output is in non-increasing order of complexity and, for
every complexity value, holds exactly the input's records of that value, as a
permutation of them; their relative order is not fixed by the input order. -/
theorem sort_Sort_keeps_ties (next : Nat → Nat) (stats : List stat) :
    ∃ out, sort_Sort next stats = some out ∧ Descending out
      ∧ ∀ c : Int, (out.filter fun s => decide (s.Complexity = c)).Perm
          (stats.filter fun s => decide (s.Complexity = c)) := by
  obtain ⟨out, hout, hperm, hdesc⟩ := sort_Sort_spec next stats
  exact ⟨out, hout, hdesc, fun c => hperm.filter _⟩

/-! ## Lemmas on `writeStats` -/

theorem writeStatsLoop_eq (top over : Int) (l : List stat) (i : Nat) (w : List stat) :
    writeStatsLoop top over i l w
      = (w ++ l.take (writtenCount top over i l),
          if writtenCount top over i l < l.length then
            some (((i + writtenCount top over i l : Nat) : Int))
          else none) := by
  induction l generalizing i w with
  | nil => simp [writeStatsLoop, writtenCount]
  | cons s rest ih =>
      rw [writeStatsLoop]
      by_cases htop : (i : Int) = top
      · have hk : writtenCount top over i (s :: rest) = 0 := by
          simp [writtenCount, htop]
        simp [htop, hk]
      · by_cases hover : s.Complexity ≤ over
        · have hk : writtenCount top over i (s :: rest) = 0 := by
            have : ¬ over < s.Complexity := by omega
            simp [writtenCount, List.takeWhile_cons, this]
          simp [htop, hover, hk]
        · have hlt : over < s.Complexity := by omega
          have hk : writtenCount top over i (s :: rest)
              = writtenCount top over (i + 1) rest + 1 := by
            simp only [writtenCount, List.takeWhile_cons, hlt, decide_True, if_true,
              List.length_cons]
            split <;> split <;> push_cast at * <;> omega
          rw [if_neg htop, if_neg hover, ih, hk]
          simp only [List.take_succ_cons, List.append_assoc, List.singleton_append,
            List.length_cons, Nat.add_lt_add_iff_right]
          congr 1
          split
          · congr 2
            omega
          · rfl

theorem writtenCount_le (top over : Int) (i : Nat) (l : List stat) :
    writtenCount top over i l ≤ l.length := by
  unfold writtenCount
  have h := (List.takeWhile_prefix (fun s => decide (over < s.Complexity)) (l := l)).length_le
  omega

theorem writeStats_eq (top over : Int) (w l : List stat) :
    writeStats top over w l
      = (w ++ l.take (writtenCount top over 0 l), (writtenCount top over 0 l : Int)) := by
  have hle := writtenCount_le top over 0 l
  rw [writeStats, writeStatsLoop_eq]
  by_cases h : writtenCount top over 0 l < l.length
  · simp [h]
  · have : writtenCount top over 0 l = l.length := by omega
    simp [this]

theorem takeWhile_eq_filter_of_descending (over : Int) (l : List stat) (h : Descending l) :
    (l.takeWhile fun s => decide (over < s.Complexity))
      = l.filter fun s => decide (over < s.Complexity) := by
  induction l with
  | nil => rfl
  | cons s rest ih =>
      unfold Descending at h
      rw [List.pairwise_cons] at h
      by_cases hs : over < s.Complexity
      · simp [List.takeWhile_cons, List.filter_cons, hs, ih h.2]
      · have hrest : ∀ b ∈ rest, ¬ over < b.Complexity := by
          intro b hb
          have := h.1 b hb
          omega
        simp only [List.takeWhile_cons, List.filter_cons, hs, decide_False]
        symm
        simpa [List.filter_eq_nil_iff] using hrest

theorem take_takeWhile_length (p : stat → Bool) (l : List stat) :
    l.take (l.takeWhile p).length = l.takeWhile p :=
  (List.prefix_iff_eq_take.mp (List.takeWhile_prefix p)).symm

theorem writtenCount_top (l : List stat) (top : Int)
    (hpos : ∀ s ∈ l, 1 ≤ s.Complexity) (htop : 0 ≤ top) :
    writtenCount top 0 0 l = min top.toNat l.length := by
  have hall : (l.takeWhile fun s => decide ((0 : Int) < s.Complexity)) = l := by
    rw [List.takeWhile_eq_self_iff]
    intro s hs
    have := hpos s hs
    simp only [decide_eq_true_eq]
    omega
  simp only [writtenCount, hall, Nat.cast_zero, htop, if_true, sub_zero]
  omega

theorem writtenCount_unset (l : List stat) (top over : Int) (htop : top < 0) :
    writtenCount top over 0 l
      = (l.takeWhile fun s => decide (over < s.Complexity)).length := by
  have h := (List.takeWhile_prefix (fun s => decide (over < s.Complexity)) (l := l)).length_le
  have hneg : ¬ ((0 : Nat) : Int) ≤ top := by omega
  simp only [writtenCount, hneg, if_false]
  omega

theorem writtenCount_set (l : List stat) (top over : Int) (htop : 0 ≤ top) :
    writtenCount top over 0 l
      = min top.toNat (l.takeWhile fun s => decide (over < s.Complexity)).length := by
  simp only [writtenCount, Nat.cast_zero, htop, if_true, sub_zero]
  omega

/-! ## Reported records -/

/-- C8: for a list in non-increasing order of complexity with every complexity at
least 1, `top >= 0` and `over = 0`, `writeStats` writes exactly `min(top, len)` records,
the first `min(top, len)` of the list in order, each of complexity at least that of
every record left out; for complexities 5, 5, 3, 1 and `top = 2` it writes the two
records of complexity 5. -/
theorem writeStats_top (l : List stat) (top : Int) (hdesc : Descending l)
    (hpos : ∀ s ∈ l, 1 ≤ s.Complexity) (htop : 0 ≤ top) :
    (writeStats top 0 [] l).1 = l.take (min top.toNat l.length)
      ∧ ((writeStats top 0 [] l).1.length : Int) = min top (l.length : Int)
      ∧ (∀ a ∈ (writeStats top 0 [] l).1, ∀ b ∈ l.drop (min top.toNat l.length),
            a.Complexity ≥ b.Complexity)
      ∧ (writeStats 2 0 [] sample5531).1 = [sampleStat "a" 5, sampleStat "b" 5] := by
  have hw : (writeStats top 0 [] l).1 = l.take (min top.toNat l.length) := by
    rw [writeStats_eq, writtenCount_top l top hpos htop]
    simp
  refine ⟨hw, ?_, ?_, by decide⟩
  · rw [hw, List.length_take]
    omega
  · rw [hw]
    have hsplit : (l.take (min top.toNat l.length) ++ l.drop (min top.toNat l.length)).Pairwise
        (fun a b => a.Complexity ≥ b.Complexity) := by
      rw [List.take_append_drop]
      exact hdesc
    exact (List.pairwise_append.mp hsplit).2.2

/-- The sorted sample 5, 5, 3, 1 with `top = 2`: two records are written. -/
theorem writeStats_top_witness :
    (writeStats 2 0 [] sample5531).1 = sample5531.take (min (2 : Int).toNat sample5531.length)
      ∧ ((writeStats 2 0 [] sample5531).1.length : Int) = min 2 (sample5531.length : Int) :=
  ⟨(writeStats_top sample5531 2 (by decide) (by decide) (by decide)).1,
   (writeStats_top sample5531 2 (by decide) (by decide) (by decide)).2.1⟩

/-- C9: for a list in non-increasing order of complexity, any `over`, and `top` unset
(`-1`), `writeStats` writes exactly the records with complexity greater than `over`;
they form a prefix of the list, none of them has complexity at most `over`, and the
returned count is their number; for complexities 5, 3, 1 and `over = 3` it writes the
record of complexity 5 and returns 1. -/
theorem writeStats_over (l : List stat) (over : Int) (hdesc : Descending l) :
    (writeStats (-1) over [] l).1 = l.filter (fun s => decide (over < s.Complexity))
      ∧ (writeStats (-1) over [] l).1 <+: l
      ∧ (∀ s ∈ (writeStats (-1) over [] l).1, ¬ s.Complexity ≤ over)
      ∧ (writeStats (-1) over [] l).2
          = ((l.filter (fun s => decide (over < s.Complexity))).length : Int)
      ∧ writeStats (-1) 3 [] sample531 = ([sampleStat "a" 5], 1) := by
  have hk := writtenCount_unset l (-1) over (by omega)
  have hw : (writeStats (-1) over [] l).1
      = l.filter (fun s => decide (over < s.Complexity)) := by
    rw [writeStats_eq, hk]
    simp only [List.nil_append]
    rw [take_takeWhile_length, takeWhile_eq_filter_of_descending over l hdesc]
  refine ⟨hw, ?_, ?_, ?_, by decide⟩
  · rw [hw, ← takeWhile_eq_filter_of_descending over l hdesc]
    exact List.takeWhile_prefix _
  · intro s hs
    rw [hw, List.mem_filter] at hs
    have := hs.2
    simp only [decide_eq_true_eq] at this
    omega
  · rw [writeStats_eq, hk, takeWhile_eq_filter_of_descending over l hdesc]

/-- The sorted sample 5, 3, 1 with `over = 3`: one record is written. -/
theorem writeStats_over_witness :
    (writeStats (-1) 3 [] sample531).1
        = sample531.filter (fun s => decide ((3 : Int) < s.Complexity))
      ∧ (writeStats (-1) 3 [] sample531).2 = 1 :=
  ⟨(writeStats_over sample531 3 (by decide)).1,
   by rw [(writeStats_over sample531 3 (by decide)).2.2.2.1]; decide⟩

/-- C10 (counterexample): for the sorted complexities 5, 5, 3, 1 with `top = 2` and
`over = 0`, four records have complexity greater than `over`, but `writeStats`
returns 2. -/
theorem writeStats_count_truncated :
    Descending sample5531
      ∧ sample5531.countP (fun s => decide ((0 : Int) < s.Complexity)) = 4
      ∧ (writeStats 2 0 [] sample5531).2 = 2
      ∧ (writeStats 2 0 [] sample5531).2
          ≠ ((sample5531.countP (fun s => decide ((0 : Int) < s.Complexity)) : Nat) : Int) := by
  decide

/-- C10 (amended): for a list in non-increasing order of complexity, any `over` and any
`top`, the count returned by `writeStats` is the number of records it wrote: the
number of records with complexity greater than `over` when `top` is negative, and the
smaller of `top` and that number when `top >= 0`; for complexities 5, 5, 3, 1 with
`top = 2` and `over = 0` it is 2. -/
theorem writeStats_count (l : List stat) (top over : Int) (hdesc : Descending l) :
    (writeStats top over [] l).2 = ((writeStats top over [] l).1.length : Int)
      ∧ (writeStats top over [] l).2
          = (if 0 ≤ top then
              min top ((l.countP (fun s => decide (over < s.Complexity)) : Nat) : Int)
             else ((l.countP (fun s => decide (over < s.Complexity)) : Nat) : Int))
      ∧ (writeStats 2 0 [] sample5531).2 = 2 := by
  have hle := writtenCount_le top over 0 l
  refine ⟨?_, ?_, by decide⟩
  · rw [writeStats_eq]
    simp only [List.nil_append, List.length_take]
    omega
  · rw [writeStats_eq, List.countP_eq_length_filter,
      ← takeWhile_eq_filter_of_descending over l hdesc]
    by_cases htop : 0 ≤ top
    · rw [if_pos htop, writtenCount_set l top over htop]
      omega
    · rw [if_neg htop, writtenCount_unset l top over (by omega)]

/-- The sorted sample 5, 5, 3, 1 with `top = 2`, `over = 0`: the returned count is the
number of records written, 2. -/
theorem writeStats_count_witness :
    (writeStats 2 0 [] sample5531).2 = ((writeStats 2 0 [] sample5531).1.length : Int) :=
  (writeStats_count sample5531 2 0 (by decide)).1

/-! ## Lemmas on `float64` rounding -/

theorem scaleBy_pos (n d : Nat) (e : Int) (hd : 0 < d) : 0 < (scaleBy n d e).2 := by
  unfold scaleBy
  split
  · exact Nat.mul_pos hd (pow_pos (by norm_num) _)
  · exact hd

theorem scaleBy_spec (n d : Nat) (e : Int) (hd : 0 < d) :
    ((scaleBy n d e).1 : ℚ) / ((scaleBy n d e).2 : ℚ) = (n : ℚ) / d / (2 : ℚ) ^ e := by
  have hd' : (d : ℚ) ≠ 0 := by exact_mod_cast hd.ne'
  unfold scaleBy
  split
  · rename_i h
    obtain ⟨k, rfl⟩ := Int.eq_ofNat_of_zero_le h
    simp only [Int.toNat_ofNat, Nat.cast_mul, Nat.cast_pow, Nat.cast_ofNat, zpow_natCast]
    rw [div_div]
  · rename_i h
    obtain ⟨k, hk⟩ := Int.eq_ofNat_of_zero_le (show 0 ≤ -e by omega)
    have he : e = -(k : Int) := by omega
    subst he
    simp only [neg_neg, Int.toNat_ofNat, Nat.cast_mul, Nat.cast_pow, Nat.cast_ofNat, zpow_neg,
      zpow_natCast]
    field_simp

theorem toRat_ne_four_thirds (x : Float64) : x.toRat ≠ some ((4 : ℚ) / 3) := by
  cases x with
  | NaN => simp [Float64.toRat]
  | Inf neg => simp [Float64.toRat]
  | Finite neg m e =>
      simp only [Float64.toRat, ne_eq, Option.some.injEq]
      intro h
      have hpos : (0 : ℚ) < (2 : ℚ) ^ e := zpow_pos (by norm_num) e
      cases neg with
      | true =>
          have : (if true = true then (-1 : ℚ) else 1) * (m : ℚ) * (2 : ℚ) ^ e ≤ 0 := by
            simp only [if_true]
            have hm : (0 : ℚ) ≤ m := Nat.cast_nonneg m
            nlinarith [mul_nonneg hm hpos.le]
          rw [h] at this
          norm_num at this
      | false =>
          simp only [Bool.false_eq_true, if_false, one_mul] at h
          rcases le_or_lt 0 e with he | he
          · obtain ⟨k, rfl⟩ := Int.eq_ofNat_of_zero_le he
            rw [zpow_natCast] at h
            have h3 : (3 : ℚ) * ((m * 2 ^ k : Nat) : ℚ) = 4 := by
              push_cast
              linarith
            have h3' : 3 * (m * 2 ^ k) = 4 := by exact_mod_cast h3
            omega
          · obtain ⟨k, hk⟩ := Int.eq_ofNat_of_zero_le (show 0 ≤ -e by omega)
            have he' : e = -(k : Int) := by omega
            subst he'
            rw [zpow_neg, zpow_natCast] at h
            have hk2 : (0 : ℚ) < 2 ^ k := by positivity
            have h3 : ((3 * m : Nat) : ℚ) = ((2 ^ (k + 2) : Nat) : ℚ) := by
              push_cast
              field_simp at h
              rw [pow_succ, pow_succ]
              linarith
            have h3' : 3 * m = 2 ^ (k + 2) := by exact_mod_cast h3
            have hdvd : 3 ∣ 2 ^ (k + 2) := ⟨m, h3'.symm⟩
            have := Nat.Prime.dvd_of_dvd_pow Nat.prime_three hdvd
            omega

theorem roundQuotient_spec (N D : Nat) (hD : 0 < D) :
    N / D ≤ roundQuotient N D ∧ roundQuotient N D ≤ N / D + 1
      ∧ |(N : ℚ) / D - (roundQuotient N D : ℚ)| * 2 ≤ 1 := by
  have hD' : (0 : ℚ) < D := by exact_mod_cast hD
  have hdm : D * (N / D) + N % D = N := Nat.div_add_mod N D
  have hr : N % D < D := Nat.mod_lt N hD
  have hq : (N : ℚ) / D = ((N / D : Nat) : ℚ) + ((N % D : Nat) : ℚ) / D := by
    have : (N : ℚ) = D * ((N / D : Nat) : ℚ) + ((N % D : Nat) : ℚ) := by exact_mod_cast hdm.symm
    field_simp
    linarith
  have hr0 : (0 : ℚ) ≤ ((N % D : Nat) : ℚ) / D := by positivity
  have hr1 : ((N % D : Nat) : ℚ) / D < 1 := by
    rw [div_lt_one hD']
    exact_mod_cast hr
  unfold roundQuotient
  split
  · rename_i h
    refine ⟨le_refl _, by omega, ?_⟩
    have h2 : 2 * ((N % D : Nat) : ℚ) / D < 1 := by
      rw [div_lt_one hD']
      exact_mod_cast h
    rw [hq, add_sub_cancel_left, abs_of_nonneg hr0]
    linarith [mul_div_assoc (2 : ℚ) ((N % D : Nat) : ℚ) (D : ℚ)]
  · split
    · rename_i h₁ h
      refine ⟨by omega, le_refl _, ?_⟩
      have h2 : 1 < 2 * ((N % D : Nat) : ℚ) / D := by
        rw [one_lt_div hD']
        exact_mod_cast h
      rw [hq]
      push_cast
      have hneg : ((N / D : Nat) : ℚ) + ((N % D : Nat) : ℚ) / D - (((N / D : Nat) : ℚ) + 1) ≤ 0 := by
        linarith
      rw [abs_of_nonpos hneg]
      linarith [mul_div_assoc (2 : ℚ) ((N % D : Nat) : ℚ) (D : ℚ)]
    · rename_i h₁ h₂
      have heq : 2 * (N % D) = D := by omega
      have h2 : 2 * ((N % D : Nat) : ℚ) / D = 1 := by
        rw [div_eq_one_iff_eq hD'.ne']
        exact_mod_cast heq
      have h2' : ((N % D : Nat) : ℚ) / D = 1 / 2 := by
        linarith [mul_div_assoc (2 : ℚ) ((N % D : Nat) : ℚ) (D : ℚ)]
      split
      · refine ⟨le_refl _, by omega, ?_⟩
        rw [hq, add_sub_cancel_left, h2', abs_of_pos (by norm_num)]
        norm_num
      · refine ⟨by omega, le_refl _, ?_⟩
        rw [hq, h2']
        push_cast
        rw [show ((N / D : Nat) : ℚ) + 1 / 2 - (((N / D : Nat) : ℚ) + 1) = -(1 / 2) by ring,
          abs_neg, abs_of_pos (by norm_num)]
        norm_num

theorem binaryExponent_spec (n d : Nat) (hn : 0 < n) (hd : 0 < d) :
    2 ^ 52 * (scaleBy n d (binaryExponent n d)).2 ≤ (scaleBy n d (binaryExponent n d)).1
      ∧ (scaleBy n d (binaryExponent n d)).1 < 2 ^ 53 * (scaleBy n d (binaryExponent n d)).2 := by
  obtain ⟨hn₁, hn₂⟩ := floorLog2_spec n hn
  obtain ⟨hd₁, hd₂⟩ := floorLog2_spec d hd
  have hnq₁ : ((2 : ℚ) ^ floorLog2 n) ≤ n := by exact_mod_cast hn₁
  have hnq₂ : (n : ℚ) < 2 * (2 : ℚ) ^ floorLog2 n := by
    have : (n : ℚ) < (2 : ℚ) ^ (floorLog2 n + 1) := by exact_mod_cast hn₂
    rw [pow_succ] at this
    linarith
  have hdq₁ : ((2 : ℚ) ^ floorLog2 d) ≤ d := by exact_mod_cast hd₁
  have hdq₂ : (d : ℚ) < 2 * (2 : ℚ) ^ floorLog2 d := by
    have : (d : ℚ) < (2 : ℚ) ^ (floorLog2 d + 1) := by exact_mod_cast hd₂
    rw [pow_succ] at this
    linarith
  have hA : (0 : ℚ) < (2 : ℚ) ^ floorLog2 n := by positivity
  have hB : (0 : ℚ) < (2 : ℚ) ^ floorLog2 d := by positivity
  have hdq : (0 : ℚ) < d := by exact_mod_cast hd
  -- the scaled quotient at the first guess of the exponent
  have he₀ : (2 : ℚ) ^ ((floorLog2 n : Int) - (floorLog2 d : Int) - 52)
      = (2 : ℚ) ^ floorLog2 n / (2 : ℚ) ^ floorLog2 d / 2 ^ 52 := by
    rw [zpow_sub₀ (by norm_num), zpow_sub₀ (by norm_num), zpow_natCast, zpow_natCast]
    norm_num
  have hX := scaleBy_spec n d ((floorLog2 n : Int) - (floorLog2 d : Int) - 52) hd
  rw [he₀] at hX
  have hD₀ := scaleBy_pos n d ((floorLog2 n : Int) - (floorLog2 d : Int) - 52) hd
  have hD₀q : (0 : ℚ) < ((scaleBy n d ((floorLog2 n : Int) - (floorLog2 d : Int) - 52)).2 : ℚ) := by
    exact_mod_cast hD₀
  have hXeq : (n : ℚ) / d / ((2 : ℚ) ^ floorLog2 n / (2 : ℚ) ^ floorLog2 d / 2 ^ 52)
      = (n : ℚ) * (2 : ℚ) ^ floorLog2 d * 2 ^ 52 / (d * (2 : ℚ) ^ floorLog2 n) := by
    field_simp
    ring
  rw [hXeq] at hX
  have hup : ((scaleBy n d ((floorLog2 n : Int) - (floorLog2 d : Int) - 52)).1 : ℚ)
      / ((scaleBy n d ((floorLog2 n : Int) - (floorLog2 d : Int) - 52)).2 : ℚ) < 2 ^ 53 := by
    rw [hX, div_lt_iff₀ (by positivity)]
    have : (n : ℚ) * (2 : ℚ) ^ floorLog2 d < 2 * (2 : ℚ) ^ floorLog2 n * d := by
      calc (n : ℚ) * (2 : ℚ) ^ floorLog2 d
          < 2 * (2 : ℚ) ^ floorLog2 n * (2 : ℚ) ^ floorLog2 d := by
            exact mul_lt_mul_of_pos_right hnq₂ hB
        _ ≤ 2 * (2 : ℚ) ^ floorLog2 n * d := by
            exact mul_le_mul_of_nonneg_left hdq₁ (by positivity)
    nlinarith
  have hlo : (2 : ℚ) ^ 51
      < ((scaleBy n d ((floorLog2 n : Int) - (floorLog2 d : Int) - 52)).1 : ℚ)
        / ((scaleBy n d ((floorLog2 n : Int) - (floorLog2 d : Int) - 52)).2 : ℚ) := by
    rw [hX, lt_div_iff₀ (by positivity)]
    have : (2 : ℚ) ^ floorLog2 n * d < 2 * ((n : ℚ) * (2 : ℚ) ^ floorLog2 d) := by
      calc (2 : ℚ) ^ floorLog2 n * d
          < (2 : ℚ) ^ floorLog2 n * (2 * (2 : ℚ) ^ floorLog2 d) := by
            exact mul_lt_mul_of_pos_left hdq₂ hA
        _ ≤ n * (2 * (2 : ℚ) ^ floorLog2 d) := by
            exact mul_le_mul_of_nonneg_right hnq₁ (by positivity)
        _ = 2 * ((n : ℚ) * (2 : ℚ) ^ floorLog2 d) := by ring
    nlinarith
  unfold binaryExponent
  simp only []
  split
  · rename_i hsmall
    -- one more bit is needed
    have hsm : (scaleBy n d ((floorLog2 n : Int) - (floorLog2 d : Int) - 52)).1
        < 2 ^ 52 * (scaleBy n d ((floorLog2 n : Int) - (floorLog2 d : Int) - 52)).2 := by
      rw [Nat.div_lt_iff_lt_mul hD₀] at hsmall
      exact hsmall
    have hsmq : ((scaleBy n d ((floorLog2 n : Int) - (floorLog2 d : Int) - 52)).1 : ℚ)
        / ((scaleBy n d ((floorLog2 n : Int) - (floorLog2 d : Int) - 52)).2 : ℚ) < 2 ^ 52 := by
      rw [div_lt_iff₀ hD₀q]
      exact_mod_cast hsm
    have hY := scaleBy_spec n d ((floorLog2 n : Int) - (floorLog2 d : Int) - 52 - 1) hd
    have hD₁ := scaleBy_pos n d ((floorLog2 n : Int) - (floorLog2 d : Int) - 52 - 1) hd
    have hD₁q : (0 : ℚ)
        < ((scaleBy n d ((floorLog2 n : Int) - (floorLog2 d : Int) - 52 - 1)).2 : ℚ) := by
      exact_mod_cast hD₁
    have hrel : ((scaleBy n d ((floorLog2 n : Int) - (floorLog2 d : Int) - 52 - 1)).1 : ℚ)
        / ((scaleBy n d ((floorLog2 n : Int) - (floorLog2 d : Int) - 52 - 1)).2 : ℚ)
        = 2 * (((scaleBy n d ((floorLog2 n : Int) - (floorLog2 d : Int) - 52)).1 : ℚ)
          / ((scaleBy n d ((floorLog2 n : Int) - (floorLog2 d : Int) - 52)).2 : ℚ)) := by
      rw [hY, scaleBy_spec n d ((floorLog2 n : Int) - (floorLog2 d : Int) - 52) hd,
        zpow_sub₀ (by norm_num) _ 1, zpow_one]
      field_simp
      ring
    constructor
    · have h : (2 : ℚ) ^ 52
          ≤ ((scaleBy n d ((floorLog2 n : Int) - (floorLog2 d : Int) - 52 - 1)).1 : ℚ)
            / ((scaleBy n d ((floorLog2 n : Int) - (floorLog2 d : Int) - 52 - 1)).2 : ℚ) := by
        rw [hrel]
        linarith
      rw [le_div_iff₀ hD₁q] at h
      exact_mod_cast h
    · have h : ((scaleBy n d ((floorLog2 n : Int) - (floorLog2 d : Int) - 52 - 1)).1 : ℚ)
            / ((scaleBy n d ((floorLog2 n : Int) - (floorLog2 d : Int) - 52 - 1)).2 : ℚ)
          < 2 ^ 53 := by
        rw [hrel]
        linarith
      rw [div_lt_iff₀ hD₁q] at h
      exact_mod_cast h
  · rename_i hbig
    constructor
    · rw [Nat.div_lt_iff_lt_mul hD₀] at hbig
      omega
    · rw [div_lt_iff₀ hD₀q] at hup
      exact_mod_cast hup

theorem roundToFloat64_nearest (n d : Nat) (hn : 0 < n) (hd : 0 < d) :
    2 ^ 52 ≤ (roundToFloat64 n d).1 ∧ (roundToFloat64 n d).1 < 2 ^ 53
      ∧ |(n : ℚ) / d - ((roundToFloat64 n d).1 : ℚ) * (2 : ℚ) ^ (roundToFloat64 n d).2| * 2
          ≤ (2 : ℚ) ^ (roundToFloat64 n d).2
      ∧ |(n : ℚ) / d - ((roundToFloat64 n d).1 : ℚ) * (2 : ℚ) ^ (roundToFloat64 n d).2| * 2 ^ 53
          ≤ (n : ℚ) / d := by
  obtain ⟨hlo, hhi⟩ := binaryExponent_spec n d hn hd
  have hD := scaleBy_pos n d (binaryExponent n d) hd
  have hDq : (0 : ℚ) < ((scaleBy n d (binaryExponent n d)).2 : ℚ) := by exact_mod_cast hD
  obtain ⟨hk₁, hk₂, hk₃⟩ :=
    roundQuotient_spec (scaleBy n d (binaryExponent n d)).1 (scaleBy n d (binaryExponent n d)).2 hD
  have hq := scaleBy_spec n d (binaryExponent n d) hd
  have hfl₁ : 2 ^ 52 ≤ (scaleBy n d (binaryExponent n d)).1 / (scaleBy n d (binaryExponent n d)).2 :=
    (Nat.le_div_iff_mul_le hD).mpr hlo
  have hfl₂ : (scaleBy n d (binaryExponent n d)).1 / (scaleBy n d (binaryExponent n d)).2 < 2 ^ 53 :=
    (Nat.div_lt_iff_lt_mul hD).mpr hhi
  have hpow : (0 : ℚ) < (2 : ℚ) ^ binaryExponent n d := zpow_pos (by norm_num) _
  have hX : (2 : ℚ) ^ 52
      ≤ ((scaleBy n d (binaryExponent n d)).1 : ℚ) / ((scaleBy n d (binaryExponent n d)).2 : ℚ) := by
    rw [le_div_iff₀ hDq]
    exact_mod_cast hlo
  have hqe : (n : ℚ) / d
      = ((scaleBy n d (binaryExponent n d)).1 : ℚ) / ((scaleBy n d (binaryExponent n d)).2 : ℚ)
        * (2 : ℚ) ^ binaryExponent n d := by
    rw [hq]
    field_simp
    ring
  have habs : |(n : ℚ) / d
        - (roundQuotient (scaleBy n d (binaryExponent n d)).1
            (scaleBy n d (binaryExponent n d)).2 : ℚ) * (2 : ℚ) ^ binaryExponent n d| * 2
      ≤ (2 : ℚ) ^ binaryExponent n d := by
    rw [hqe, ← sub_mul, abs_mul, abs_of_pos hpow]
    nlinarith
  have hrel : (2 : ℚ) ^ 52 * (2 : ℚ) ^ binaryExponent n d ≤ (n : ℚ) / d := by
    rw [hqe]
    exact mul_le_mul_of_nonneg_right hX hpow.le
  unfold roundToFloat64
  simp only []
  split
  · rename_i hcarry
    have hval : ((2 ^ 52 : Nat) : ℚ) * (2 : ℚ) ^ (binaryExponent n d + 1)
        = (roundQuotient (scaleBy n d (binaryExponent n d)).1
            (scaleBy n d (binaryExponent n d)).2 : ℚ) * (2 : ℚ) ^ binaryExponent n d := by
      rw [hcarry, zpow_add₀ (by norm_num), zpow_one]
      push_cast
      ring
    refine ⟨le_refl _, by norm_num, ?_, ?_⟩
    · rw [hval]
      have : (2 : ℚ) ^ (binaryExponent n d + 1) = 2 * (2 : ℚ) ^ binaryExponent n d := by
        rw [zpow_add₀ (by norm_num), zpow_one]
        ring
      rw [this]
      linarith
    · rw [hval]
      nlinarith
  · rename_i hcarry
    refine ⟨by omega, by omega, habs, ?_⟩
    nlinarith

theorem roundToFloat64_exact (n : Nat) (hn : 0 < n) (h53 : n < 2 ^ 53) :
    ((roundToFloat64 n 1).1 : ℚ) * (2 : ℚ) ^ (roundToFloat64 n 1).2 = n := by
  obtain ⟨hn₁, hn₂⟩ := floorLog2_spec n hn
  have hlog : floorLog2 n ≤ 52 := by
    by_contra hgt
    have : 2 ^ 53 ≤ 2 ^ floorLog2 n := Nat.pow_le_pow_right (by norm_num) (by omega)
    omega
  have he : binaryExponent n 1 ≤ 0 := by
    unfold binaryExponent
    simp only []
    have h1 : floorLog2 1 = 0 := by decide
    rw [h1]
    split <;> omega
  obtain ⟨k, hk⟩ := Int.eq_ofNat_of_zero_le (show 0 ≤ -binaryExponent n 1 by omega)
  have hsc : scaleBy n 1 (binaryExponent n 1) = (n * 2 ^ k, 1) := by
    unfold scaleBy
    by_cases h0 : 0 ≤ binaryExponent n 1
    · have hz : binaryExponent n 1 = 0 := by omega
      have hk0 : k = 0 := by omega
      simp [hz, hk0]
    · rw [if_neg h0, hk]
      simp
  have hrq : roundQuotient (n * 2 ^ k) 1 = n * 2 ^ k := by
    simp [roundQuotient, Nat.mod_one]
  have hpow : (2 : ℚ) ^ binaryExponent n 1 = 1 / (2 : ℚ) ^ k := by
    have : binaryExponent n 1 = -(k : Int) := by omega
    rw [this, zpow_neg, zpow_natCast, one_div]
  have hk2 : (0 : ℚ) < (2 : ℚ) ^ k := by positivity
  unfold roundToFloat64
  simp only [hsc, hrq]
  split
  · rename_i hcarry
    rw [zpow_add₀ (by norm_num), zpow_one, hpow]
    have : ((n * 2 ^ k : Nat) : ℚ) = ((2 ^ 53 : Nat) : ℚ) := by rw [hcarry]
    push_cast at this ⊢
    field_simp
    linarith
  · rw [hpow]
    push_cast
    field_simp

theorem scaleBy_fst_pos (n d : Nat) (e : Int) (hn : 0 < n) : 0 < (scaleBy n d e).1 := by
  unfold scaleBy
  split
  · exact hn
  · exact Nat.mul_pos hn (pow_pos (by norm_num) _)

theorem ofInt_shape (n : Int) (hn : n ≠ 0) (h53 : n.natAbs < 2 ^ 53) :
    ∃ m e, Float64.ofInt n = Float64.Finite (decide (n < 0)) m e ∧ 0 < m
      ∧ (m : ℚ) * (2 : ℚ) ^ e = |(n : ℚ)| := by
  have hpos : 0 < n.natAbs := Int.natAbs_pos.mpr hn
  refine ⟨(roundToFloat64 n.natAbs 1).1, (roundToFloat64 n.natAbs 1).2, ?_, ?_, ?_⟩
  · simp [Float64.ofInt, hn]
  · have := (roundToFloat64_nearest n.natAbs 1 hpos (by norm_num)).1
    omega
  · rw [roundToFloat64_exact n.natAbs hpos h53]
    simp [Nat.cast_natAbs]

theorem div_finite (s t : Bool) (m m₁ : Nat) (e e₁ : Int) (hm : 0 < m) (hm₁ : 0 < m₁) :
    ∃ m₂ e₂, Float64.div (Float64.Finite s m e) (Float64.Finite t m₁ e₁)
        = Float64.Finite (xor s t) m₂ e₂
      ∧ |(m : ℚ) * (2 : ℚ) ^ e / ((m₁ : ℚ) * (2 : ℚ) ^ e₁) - (m₂ : ℚ) * (2 : ℚ) ^ e₂| * 2 ^ 53
          ≤ (m : ℚ) * (2 : ℚ) ^ e / ((m₁ : ℚ) * (2 : ℚ) ^ e₁) := by
  have hN := scaleBy_fst_pos m m₁ (e₁ - e) hm
  have hD := scaleBy_pos m m₁ (e₁ - e) hm₁
  obtain ⟨-, -, -, hrel⟩ :=
    roundToFloat64_nearest (scaleBy m m₁ (e₁ - e)).1 (scaleBy m m₁ (e₁ - e)).2 hN hD
  have hq : ((scaleBy m m₁ (e₁ - e)).1 : ℚ) / ((scaleBy m m₁ (e₁ - e)).2 : ℚ)
      = (m : ℚ) * (2 : ℚ) ^ e / ((m₁ : ℚ) * (2 : ℚ) ^ e₁) := by
    rw [scaleBy_spec m m₁ (e₁ - e) hm₁, zpow_sub₀ (by norm_num)]
    have h₁ : (0 : ℚ) < (2 : ℚ) ^ e := zpow_pos (by norm_num) _
    have h₂ : (0 : ℚ) < (2 : ℚ) ^ e₁ := zpow_pos (by norm_num) _
    have h₃ : (0 : ℚ) < m₁ := by exact_mod_cast hm₁
    field_simp
  rw [hq] at hrel
  refine ⟨_, _, ?_, hrel⟩
  simp [Float64.div, hm.ne', hm₁.ne']

theorem div_ofInt_nearest (a b : Int) (hb : 0 < b) (ha : a.natAbs < 2 ^ 53)
    (hb53 : b.natAbs < 2 ^ 53) :
    ∃ v : ℚ, (Float64.div (Float64.ofInt a) (Float64.ofInt b)).toRat = some v
      ∧ |v - (a : ℚ) / b| * 2 ^ 53 ≤ |(a : ℚ) / b| := by
  obtain ⟨m₁, e₁, hbshape, hm₁, hbval⟩ := ofInt_shape b (by omega) hb53
  have hbq : (0 : ℚ) < b := by exact_mod_cast hb
  rw [abs_of_pos hbq] at hbval
  have hbneg : decide (b < 0) = false := by simp; omega
  rw [hbneg] at hbshape
  by_cases ha0 : a = 0
  · subst ha0
    refine ⟨0, ?_, by simp⟩
    rw [hbshape]
    simp [Float64.ofInt, Float64.div, hm₁.ne', Float64.toRat]
  · obtain ⟨m, e, hashape, hm, haval⟩ := ofInt_shape a ha0 ha
    obtain ⟨m₂, e₂, hdiv, hrel⟩ := div_finite (decide (a < 0)) false m m₁ e e₁ hm hm₁
    rw [haval, hbval] at hrel
    rw [hashape, hbshape, hdiv]
    refine ⟨(if (xor (decide (a < 0)) false) = true then -1 else 1) * (m₂ : ℚ) * (2 : ℚ) ^ e₂,
      rfl, ?_⟩
    rw [abs_div, abs_of_pos hbq]
    by_cases hneg : a < 0
    · have haq : (a : ℚ) < 0 := by exact_mod_cast hneg
      have habs : |(a : ℚ)| = -a := abs_of_neg haq
      simp only [hneg, decide_True, Bool.xor_false, if_true]
      rw [habs] at hrel ⊢
      have : (-1 : ℚ) * m₂ * (2 : ℚ) ^ e₂ - (a : ℚ) / b
          = -(a : ℚ) / b - m₂ * (2 : ℚ) ^ e₂ := by ring
      rw [this]
      exact hrel
    · have haq : (0 : ℚ) ≤ a := by exact_mod_cast (show (0 : Int) ≤ a by omega)
      have habs : |(a : ℚ)| = a := abs_of_nonneg haq
      simp only [hneg, decide_False, Bool.xor_false, Bool.false_eq_true, if_false]
      rw [habs] at hrel ⊢
      have : (1 : ℚ) * m₂ * (2 : ℚ) ^ e₂ - (a : ℚ) / b
          = -((a : ℚ) / b - m₂ * (2 : ℚ) ^ e₂) := by ring
      rw [this, abs_neg]
      exact hrel


/-- The rounding agrees with the known `float64` values of 1/10, 1/3 and 2/3, and
rounds the ties `2 ^ 53 + 1` and `2 ^ 53 + 3` to the even neighbour. -/
theorem roundToFloat64_samples :
    roundToFloat64 1 10 = (7205759403792794, -56)
      ∧ roundToFloat64 1 3 = (6004799503160661, -54)
      ∧ roundToFloat64 2 3 = (6004799503160661, -53)
      ∧ roundToFloat64 (2 ^ 53 + 1) 1 = (2 ^ 52, 1)
      ∧ roundToFloat64 (2 ^ 53 + 3) 1 = (2 ^ 52 + 2, 1) := by
  decide

/-! ## Lemmas on `average` and `main` -/

theorem averageTotal_eq (l : List stat) (total : Int) :
    averageTotal l total = total + (l.map stat.Complexity).sum := by
  induction l generalizing total with
  | nil => simp [averageTotal]
  | cons s rest ih =>
      rw [averageTotal, ih]
      simp only [List.map_cons, List.sum_cons]
      omega

theorem average_eq (stats : List stat) :
    average stats
      = Float64.div (Float64.ofInt (stats.map stat.Complexity).sum)
          (Float64.ofInt (stats.length : Int)) := by
  rw [average, averageTotal_eq, zero_add]

theorem average_perm (out stats : List stat) (h : out.Perm stats) :
    average out = average stats := by
  rw [average_eq, average_eq, (h.map stat.Complexity).sum_eq, h.length_eq]

theorem main_eq (next : Nat → Nat) (over top : Int) (avg : Bool) (stats : List stat) :
    ∃ sorted, sort_Sort next stats = some sorted ∧ sorted.Perm stats
      ∧ main next over top avg stats
          = some { Stdout := (writeStats top over [] sorted).1
                   Average := if avg then some (average stats) else none
                   ExitCode :=
                     if over > 0 ∧ (writeStats top over [] sorted).2 > 0 then 1 else 0 } := by
  obtain ⟨sorted, hsorted, hperm, -⟩ := sort_Sort_spec next stats
  refine ⟨sorted, hsorted, hperm, ?_⟩
  simp only [main, hsorted, average_perm sorted stats hperm]

theorem writeStats_count_pos (top over : Int) (l : List stat) :
    (writeStats top over [] l).2 > 0 ↔ (writeStats top over [] l).1 ≠ [] := by
  have hle := writtenCount_le top over 0 l
  rw [writeStats_eq]
  simp only [List.nil_append, gt_iff_lt, Nat.cast_pos, ne_eq, List.take_eq_nil_iff, not_or]
  constructor
  · intro h
    refine ⟨by omega, ?_⟩
    intro hl
    subst hl
    simp only [List.length_nil, Nat.le_zero_eq] at hle
    omega
  · intro h
    have := h.1
    omega

/-! ## Summary and exit code -/

/-- C11 (counterexample): for the three records with complexities 2, 1, 1 the sum is 4
and the count 3, and `average` returns the `float64` value `6004799503160661 * 2 ^ (-52)`
(printed by Go as 1.3333333333333333), which is not the rational 4/3; no `float64`
value is. -/
theorem average_not_exact_rational :
    sample211 ≠ []
      ∧ (sample211.map stat.Complexity).sum = 4
      ∧ sample211.length = 3
      ∧ average sample211 = Float64.Finite false 6004799503160661 (-52)
      ∧ (average sample211).toRat ≠ some ((4 : ℚ) / 3)
      ∧ ∀ x : Float64, x.toRat ≠ some ((4 : ℚ) / 3) := by
  have h : average sample211 = Float64.Finite false 6004799503160661 (-52) := by decide
  exact ⟨by decide, by decide, by decide, h, toRat_ne_four_thirds _, toRat_ne_four_thirds⟩

/-- C11 (amended): for every list of records, `average` is the `float64` quotient of
`float64(sum of all Complexity values)` by `float64(number of records)`: for a
non-empty list (with sum and count below `2 ^ 53` in size) a finite value within a
relative error of `2 ^ (-53)` of sum / count, not the exact rational; it is computed
from the whole list, so the value `main` shows is the same for every `top` and `over`;
complexities 4, 2 give exactly 3. -/
theorem average_float_quotient (stats : List stat) :
    average stats
        = Float64.div (Float64.ofInt (stats.map stat.Complexity).sum)
            (Float64.ofInt (stats.length : Int))
      ∧ (stats ≠ [] → (stats.map stat.Complexity).sum.natAbs < 2 ^ 53
          → stats.length < 2 ^ 53
          → ∃ v : ℚ, (average stats).toRat = some v
              ∧ |v - ((stats.map stat.Complexity).sum : ℚ) / (stats.length : ℚ)| * 2 ^ 53
                  ≤ |((stats.map stat.Complexity).sum : ℚ) / (stats.length : ℚ)|)
      ∧ (∀ (next : Nat → Nat) (over top : Int), ∃ r, main next over top true stats = some r
            ∧ r.Average = some (average stats))
      ∧ average sample42 = Float64.Finite false (3 * 2 ^ 51) (-51)
      ∧ (average sample42).toRat = some 3 := by
  have h : average sample42 = Float64.Finite false (3 * 2 ^ 51) (-51) := by decide
  refine ⟨average_eq stats, ?_, ?_, h, ?_⟩
  · intro hne hsum hlen
    have hpos : (0 : Int) < (stats.length : Int) := by
      have := List.length_pos.mpr hne
      omega
    obtain ⟨v, hv, hbound⟩ := div_ofInt_nearest (stats.map stat.Complexity).sum
      (stats.length : Int) hpos hsum (by simpa using hlen)
    refine ⟨v, by rw [average_eq, hv], ?_⟩
    simpa using hbound
  · intro next over top
    obtain ⟨sorted, -, -, hmain⟩ := main_eq next over top true stats
    exact ⟨_, hmain, by simp⟩
  · rw [h]
    simp only [Float64.toRat, Option.some.injEq]
    norm_num

/-- The records with complexities 2, 1, 1: the average is a finite `float64` within
a relative error of `2 ^ (-53)` of 4/3. -/
theorem average_float_quotient_witness :
    ∃ v : ℚ, (average sample211).toRat = some v
      ∧ |v - ((sample211.map stat.Complexity).sum : ℚ) / (sample211.length : ℚ)| * 2 ^ 53
          ≤ |((sample211.map stat.Complexity).sum : ℚ) / (sample211.length : ℚ)| :=
  (average_float_quotient sample211).2.1 (by decide) (by decide) (by decide)

/-- C12 (counterexample): on the empty list `average` returns the `float64` value `NaN`,
without any error, and `main` with `-avg` computes it there: the run shows the average
`NaN` and ends with exit code 0. -/
theorem average_empty_no_error :
    average [] = Float64.NaN
      ∧ ∀ next : Nat → Nat, main next 0 (-1) true []
          = some { Stdout := [], Average := some Float64.NaN, ExitCode := 0 } :=
  ⟨by decide, fun _ => rfl⟩

/-- C12 (amended): the average is computed whenever `-avg` is set, for every list of
records (empty or not) and every `over` and `top`, with no guard and no error; on the
empty list the result is the `float64` value `NaN`, nothing is written and the exit
code is 0. -/
theorem average_unguarded (next : Nat → Nat) (over top : Int) :
    (∀ stats : List stat, ∃ r, main next over top true stats = some r
        ∧ r.Average = some (average stats))
      ∧ main next over top true []
          = some { Stdout := [], Average := some Float64.NaN, ExitCode := 0 } := by
  refine ⟨?_, ?_⟩
  · intro stats
    obtain ⟨sorted, -, -, hmain⟩ := main_eq next over top true stats
    exact ⟨_, hmain, by simp⟩
  · have hw : writeStats top over [] [] = ([], 0) := by
      rw [writeStats_eq]
      simp [writtenCount]
    have ha : average [] = Float64.NaN := by decide
    have hs : sort_Sort next [] = some [] := rfl
    simp [main, hs, hw, ha]

/-- C13: `main` ends with exit code 1 exactly when `over > 0` and `writeStats` wrote at
least one record, and with exit code 0 otherwise; with `over = 0` the exit code is 0;
for the complexities 5, 3, 1 and `over = 3` it is 1. -/
theorem main_exit_code (next : Nat → Nat) (over top : Int) (avg : Bool)
    (stats : List stat) :
    (∃ r, main next over top avg stats = some r
        ∧ (r.ExitCode = 1 ↔ (0 < over ∧ r.Stdout ≠ []))
        ∧ (r.ExitCode = 0 ∨ r.ExitCode = 1))
      ∧ (∃ r, main next 0 top avg stats = some r ∧ r.ExitCode = 0)
      ∧ (main next 3 (-1) false sample531).map Outcome.ExitCode = some 1 := by
  refine ⟨?_, ?_, rfl⟩
  · obtain ⟨sorted, -, -, hmain⟩ := main_eq next over top avg stats
    refine ⟨_, hmain, ?_, ?_⟩
    · simp only [gt_iff_lt]
      rw [← writeStats_count_pos]
      by_cases h : 0 < over ∧ (writeStats top over [] sorted).2 > 0
      · simp [h]
      · simp [h]
    · by_cases h : over > 0 ∧ (writeStats top over [] sorted).2 > 0
      · simp [h]
      · simp [h]
  · obtain ⟨sorted, -, -, hmain⟩ := main_eq next 0 top avg stats
    exact ⟨_, hmain, by simp⟩

/-! ## Default options and the shape of the output -/

/-- C14: with the default options (`top = -1`, `over = 0`), for every list of records
whose complexities are all at least 1, sorted or not, `writeStats` writes every
record in order and returns the length of the list. -/
theorem writeStats_default (l : List stat) (hpos : ∀ s ∈ l, 1 ≤ s.Complexity) :
    writeStats (-1) 0 [] l = (l, (l.length : Int)) := by
  have hall : (l.takeWhile fun s => decide ((0 : Int) < s.Complexity)) = l := by
    rw [List.takeWhile_eq_self_iff]
    intro s hs
    have := hpos s hs
    simp only [decide_eq_true_eq]
    omega
  rw [writeStats_eq, writtenCount_unset l (-1) 0 (by omega), hall]
  simp

/-- The records with complexities 1, 3, 5, in this order, are all written. -/
theorem writeStats_default_witness :
    writeStats (-1) 0 [] sample531.reverse
      = (sample531.reverse, (sample531.reverse.length : Int)) :=
  writeStats_default sample531.reverse (by decide)

/-- C17: for every list of records, sorted or not, and every `top` and `over`, the
records `writeStats` writes are a prefix of the list, and the returned integer is the
number of records written, between 0 and the length of the list. -/
theorem writeStats_prefix (l : List stat) (top over : Int) :
    (writeStats top over [] l).1 <+: l
      ∧ (writeStats top over [] l).2 = ((writeStats top over [] l).1.length : Int)
      ∧ 0 ≤ (writeStats top over [] l).2
      ∧ (writeStats top over [] l).2 ≤ (l.length : Int) := by
  have hle := writtenCount_le top over 0 l
  rw [writeStats_eq]
  simp only [List.nil_append, List.length_take]
  refine ⟨List.take_prefix _ _, ?_, ?_, ?_⟩ <;> omega

/-! ## The classifier -/

/-- C15: one call of `Visit` raises the counter by exactly 1 for a function
declaration, an if statement, a for statement, a range statement, a case clause (a
default clause is a case clause), a communication clause and a binary expression with
operator `&&` or `||`, and leaves it unchanged for every other node: every other kind
(switch and select statements and function literals among them), a binary expression
with any other operator, an identifier, a pointer expression, and nil. -/
theorem Visit_classifier (v : complexityVisitor) :
    (∀ fn, (Visit v (AstNode.FuncDecl fn)).Complexity = v.Complexity + 1)
      ∧ (∀ kind children, (Visit v (AstNode.node (Node.other kind children))).Complexity
          = v.Complexity
            + (if kind ∈ [Kind.IfStmt, Kind.ForStmt, Kind.RangeStmt, Kind.CaseClause,
                  Kind.CommClause] then 1 else 0))
      ∧ (∀ X Op Y, (Visit v (AstNode.node (Node.BinaryExpr X Op Y))).Complexity
          = v.Complexity + (if Op = Token.LAND ∨ Op = Token.LOR then 1 else 0))
      ∧ (∀ Name, Visit v (AstNode.node (Node.Ident Name)) = v)
      ∧ (∀ X, Visit v (AstNode.node (Node.StarExpr X)) = v)
      ∧ Visit v AstNode.nil = v
      ∧ (∀ children, Visit v (AstNode.node (Node.other Kind.CaseClause children))
          = { Complexity := v.Complexity + 1 })
      ∧ (∀ children, Visit v (AstNode.node (Node.other Kind.SwitchStmt children)) = v)
      ∧ (∀ children, Visit v (AstNode.node (Node.other Kind.TypeSwitchStmt children)) = v)
      ∧ (∀ children, Visit v (AstNode.node (Node.other Kind.SelectStmt children)) = v)
      ∧ (∀ children, Visit v (AstNode.node (Node.other Kind.FuncLit children)) = v) := by
  refine ⟨fun _ => rfl, ?_, ?_, fun _ => rfl, fun _ => rfl, rfl, fun _ => rfl, fun _ => rfl,
    fun _ => rfl, fun _ => rfl, fun _ => rfl⟩
  · intro kind children
    cases kind <;> simp [Visit]
  · intro X Op Y
    cases Op <;> simp [Visit]

/-! ## Function literals -/

mutual
theorem subtree_part (n m : Node) (h : m ∈ Node.subtree n) :
    Node.subtree m <:+: Node.subtree n := by
  cases n with
  | Ident Name =>
      rw [Node.subtree, List.mem_singleton] at h
      rw [h]
  | StarExpr X =>
      rw [Node.subtree, List.mem_cons] at h
      rcases h with h | h
      · rw [h]
      · rw [Node.subtree]
        exact (subtree_part X m h).trans (List.suffix_cons _ _).isInfix
  | BinaryExpr X Op Y =>
      rw [Node.subtree, List.mem_cons, List.mem_append] at h
      rcases h with h | h | h
      · rw [h]
      · rw [Node.subtree]
        exact ((subtree_part X m h).trans (List.prefix_append _ _).isInfix).trans
          (List.suffix_cons _ _).isInfix
      · rw [Node.subtree]
        exact ((subtree_part Y m h).trans (List.suffix_append _ _).isInfix).trans
          (List.suffix_cons _ _).isInfix
  | other kind children =>
      rw [Node.subtree, List.mem_cons] at h
      rcases h with h | h
      · rw [h]
      · rw [Node.subtree]
        exact (subtreeList_part children m h).trans (List.suffix_cons _ _).isInfix
theorem subtreeList_part (l : List Node) (m : Node) (h : m ∈ subtreeList l) :
    Node.subtree m <:+: subtreeList l := by
  cases l with
  | nil => simp [subtreeList] at h
  | cons c cs =>
      rw [subtreeList, List.mem_append] at h
      rw [subtreeList]
      rcases h with h | h
      · exact (subtree_part c m h).trans (List.prefix_append _ _).isInfix
      · exact (subtreeList_part cs m h).trans (List.suffix_append _ _).isInfix
end

theorem nodes_part (fn : FuncDecl) (m : Node) (h : m ∈ fn.nodes) :
    Node.subtree m <:+: fn.nodes := by
  unfold FuncDecl.nodes at h ⊢
  simp only [List.mem_append] at h
  rcases h with ((h | h) | h) | h
  · cases hr : fn.Recv with
    | none => simp [hr] at h
    | some recv =>
        simp only [hr] at h ⊢
        exact (((subtree_part _ m h).trans (List.prefix_append _ _).isInfix).trans
          (List.prefix_append _ _).isInfix).trans (List.prefix_append _ _).isInfix
  · exact (((subtree_part _ m h).trans (List.suffix_append _ _).isInfix).trans
      (List.prefix_append _ _).isInfix).trans (List.prefix_append _ _).isInfix
  · exact ((subtree_part _ m h).trans (List.suffix_append _ _).isInfix).trans
      (List.prefix_append _ _).isInfix
  · cases hb : fn.Body with
    | none => simp [hb] at h
    | some body =>
        simp only [hb] at h ⊢
        exact (subtree_part _ m h).trans (List.suffix_append _ _).isInfix

/-- C16: when a function literal occurs below a declaration, the nodes of the literal
are among the nodes counted for the declaration: `complexity` is 1 for the
declaration, plus the decision points inside the literal, plus those before and
after it; the function-literal node itself adds nothing. -/
theorem funcLit_attributed (fn : FuncDecl) (children : List Node)
    (h : Node.other Kind.FuncLit children ∈ fn.nodes) :
    ∃ pre post,
      fn.nodes = pre ++ (Node.other Kind.FuncLit children :: subtreeList children) ++ post
        ∧ complexity fn
            = 1 + (decisionPoints pre : Int) + (decisionPoints (subtreeList children) : Int)
                + (decisionPoints post : Int)
        ∧ decisionPoints [Node.other Kind.FuncLit children] = 0
        ∧ ∀ v, Visit v (AstNode.node (Node.other Kind.FuncLit children)) = v := by
  obtain ⟨pre, post, hsplit⟩ := nodes_part fn _ h
  rw [Node.subtree] at hsplit
  have hzero : decisionPoints [Node.other Kind.FuncLit children] = 0 := rfl
  refine ⟨pre, post, hsplit.symm, ?_, hzero, fun _ => rfl⟩
  rw [complexity_eq, ← hsplit, decisionPoints_append, decisionPoints_append,
    decisionPoints_cons, hzero]
  push_cast
  omega

/-- The declaration `func g() { h := func() { if c { } }; for { } }` has complexity 3:
1, plus the if inside the literal, plus the loop after it. -/
theorem funcLit_attributed_witness :
    complexity sampleWithLit = 3
      ∧ ∃ pre post,
          sampleWithLit.nodes
              = pre ++ (sampleLit :: subtreeList
                  [Node.other Kind.FuncType [Node.other Kind.FieldList []],
                   Node.other Kind.BlockStmt
                     [Node.other Kind.IfStmt [Node.Ident "c", Node.other Kind.BlockStmt []]]])
                ++ post
            ∧ complexity sampleWithLit
                = 1 + (decisionPoints pre : Int)
                    + (decisionPoints (subtreeList
                        [Node.other Kind.FuncType [Node.other Kind.FieldList []],
                         Node.other Kind.BlockStmt
                           [Node.other Kind.IfStmt
                             [Node.Ident "c", Node.other Kind.BlockStmt []]]]) : Int)
                    + (decisionPoints post : Int) := by
  refine ⟨by decide, ?_⟩
  obtain ⟨pre, post, h₁, h₂, -⟩ := funcLit_attributed sampleWithLit
    [Node.other Kind.FuncType [Node.other Kind.FieldList []],
     Node.other Kind.BlockStmt
       [Node.other Kind.IfStmt [Node.Ident "c", Node.other Kind.BlockStmt []]]]
    (by simp [FuncDecl.nodes, sampleWithLit, sampleLit, Node.subtree, subtreeList])
  exact ⟨pre, post, h₁, h₂⟩

/-! ## The ordering predicate -/

/-- C18 (the code at the failing inputs): `Less(0, 0)` is true on a one-record list,
and on two records of equal complexity both `Less(0, 1)` and `Less(1, 0)` are true,
although neither record has strictly greater complexity than the other. -/
theorem Less_not_strict :
    byComplexity.Less [sampleStat "a" 5] 0 0 = some true
      ∧ byComplexity.Less [sampleStat "a" 5, sampleStat "b" 5] 0 1 = some true
      ∧ byComplexity.Less [sampleStat "a" 5, sampleStat "b" 5] 1 0 = some true
      ∧ ¬ (sampleStat "a" 5).Complexity > (sampleStat "b" 5).Complexity := by
  decide

/-! ## Receivers -/

theorem recvString_nestStar (n : Nat) (x : Node) :
    recvString (nestStar n x) = asterisks n ++ recvString x := by
  induction n with
  | zero => simp [nestStar, asterisks]
  | succ n ih => rw [nestStar, recvString, ih, asterisks, String.append_assoc]

theorem exists_nestStar :
    ∀ x : Node, ∃ n base, x = nestStar n base ∧ ∀ y, base ≠ Node.StarExpr y
  | Node.Ident Name => ⟨0, Node.Ident Name, rfl, fun y h => by cases h⟩
  | Node.StarExpr X => by
      obtain ⟨n, base, hx, hbase⟩ := exists_nestStar X
      exact ⟨n + 1, base, by rw [nestStar, ← hx], hbase⟩
  | Node.BinaryExpr X Op Y => ⟨0, Node.BinaryExpr X Op Y, rfl, fun y h => by cases h⟩
  | Node.other kind children => ⟨0, Node.other kind children, rfl, fun y h => by cases h⟩

/-- C19: `recvString` is defined on every receiver expression and strips pointers one
by one: on `n` nested pointer expressions around an identifier `T` it returns `n`
asterisks followed by `T`, and around an expression that is neither an identifier nor
a pointer it returns `n` asterisks followed by `BADRECV`; every expression is of one
of these forms. -/
theorem recvString_strips_pointers :
    (∀ (n : Nat) (T : String),
        recvString (nestStar n (Node.Ident T)) = asterisks n ++ T)
      ∧ (∀ (n : Nat) (kind : Kind) (children : List Node),
          recvString (nestStar n (Node.other kind children)) = asterisks n ++ "BADRECV")
      ∧ (∀ (n : Nat) (X : Node) (Op : Token) (Y : Node),
          recvString (nestStar n (Node.BinaryExpr X Op Y)) = asterisks n ++ "BADRECV")
      ∧ (∀ x : Node, ∃ n base, x = nestStar n base ∧ ∀ y, base ≠ Node.StarExpr y)
      ∧ recvString (nestStar 3 (Node.Ident "T")) = "***T"
      ∧ recvString (nestStar 2 (Node.other Kind.ArrayType [Node.Ident "int"]))
          = "**BADRECV" := by
  refine ⟨?_, ?_, ?_, exists_nestStar, by decide, by decide⟩
  · intro n T
    rw [recvString_nestStar, recvString]
  · intro n kind children
    rw [recvString_nestStar]
    rfl
  · intro n X Op Y
    rw [recvString_nestStar]
    rfl

/-- C20 (the code at the failing input): for `func () f() { }`, whose receiver list is
empty, `funcName` indexes the list out of range and panics, and so does `buildStats`
on a file with this declaration. -/
theorem funcName_empty_receiver_panics :
    funcName sampleEmptyRecv = none
      ∧ buildStats { Name := "p", Decls := [Decl.FuncDecl sampleEmptyRecv] } sampleFset []
          = none := by
  decide

end Gocyclo
